import Mathlib

set_option maxRecDepth 100000

/-!
Shallow embedding of the `semaphore-v4-identity-rs` crates (`utils`, `baby_jubjub`,
`eddsa_poseidon`, `identity`) and proofs about them.

Arbitrary-precision `num_bigint::BigInt` values are modelled as `Int`.  Rust's `%` on
`BigInt` is truncated remainder (`Int.tmod`), `/` is truncated division (`Int.tdiv`),
and `>>` is an arithmetic shift (`Int.fdiv` by a power of two).  Byte buffers
(`Vec<u8>`) are modelled as `List Nat` with entries below 256.  Rust `while` loops are
modelled as fuel-indexed recursions; the fuel passed at each call site is proved (or
chosen) sufficient, and `none` models non-termination or a `panic!`.  The external
BLAKE-512 hash and the external Poseidon hash are uninterpreted parameters
(`blake : List Nat → List Nat`, `h2 : Int → Int → Int`); the Poseidon wrapper in the
source converts field elements to decimal strings and back, which is the identity on
the canonical non-negative values involved, so that layer is absorbed into `h2`.
-/

namespace SemRs

/-! ## `utils::scalar` -/

namespace scalar

/-- `scalar::is_zero` from `utils/src/scalar.rs`. -/
def is_zero (a : Int) : Bool := a == 0

/-- `scalar::is_odd` from `utils/src/scalar.rs`: `a & 1 == 1` (two's-complement low bit,
i.e. `a mod 2` with a non-negative remainder). -/
def is_odd (a : Int) : Bool := a.emod 2 == 1

/-- `scalar::shift_right` from `utils/src/scalar.rs`: arithmetic right shift, i.e. floor
division by `2^n`. -/
def shift_right (a : Int) (n : Nat) : Int := Int.fdiv a (2 ^ n)

/-- `scalar::mul` from `utils/src/scalar.rs`. -/
def mul (a b : Int) : Int := a * b

/-- `scalar::gt` from `utils/src/scalar.rs`. -/
def gt (a b : Int) : Bool := b < a

/-- Fueled body of the `while` loop of `scalar::bits`; one fuel unit per produced bit. -/
def bitsAux : Nat → Nat → List Nat
  | 0, _ => []
  | _, 0 => []
  | f + 1, e => (e % 2) :: bitsAux f (e / 2)

/-- `scalar::bits` from `utils/src/scalar.rs`: little-endian bits, empty for zero.  The
source loops while `e ≠ 0`; every call site passes a non-negative value (negative values
would not terminate in the source), so the model reads the value through `Int.toNat`.
The fuel `n.toNat + 1` exceeds the bit length, so it never runs out. -/
def bits (n : Int) : List Nat := bitsAux (n.toNat + 1) n.toNat

end scalar

/-! ## `utils::f1_field` -/

/-- `F1Field` from `utils/src/f1_field.rs`; the cached fields (`zero`, `one`, `half`,
`negone`) are recovered as functions of the order. -/
structure F1Field where
  order : Int
deriving Repr

def F1Field.zero (_ : F1Field) : Int := 0

def F1Field.one (_ : F1Field) : Int := 1

/-- The cached `half = order >> 1`. -/
def F1Field.half (f : F1Field) : Int := Int.fdiv f.order 2

/-- The cached `negone = order - 1`. -/
def F1Field.negone (f : F1Field) : Int := f.order - 1

/-- `F1Field::e`: canonicalize into `[0, order)` (Rust `%` is truncated remainder,
then a conditional order-addition). -/
def F1Field.e (f : F1Field) (res : Int) : Int :=
  let r := res.tmod f.order
  if r < 0 then r + f.order else r

/-- `F1Field::mul`. -/
def F1Field.mul (f : F1Field) (a b : Int) : Int := (a * b).tmod f.order

/-- `F1Field::sub`. -/
def F1Field.sub (f : F1Field) (a b : Int) : Int :=
  if b ≤ a then a - b else f.order - b + a

/-- `F1Field::add`. -/
def F1Field.add (f : F1Field) (a b : Int) : Int :=
  let res := a + b
  if f.order ≤ res then res - f.order else res

/-- Fueled body of the extended-Euclidean `while` loop of `F1Field::inv`.  The state is
`(t, newt, r, newr)`; Rust `BigInt` division is truncated (`Int.tdiv`).  Returns the
final `(t, r)`. -/
def egcdLoop : Nat → Int → Int → Int → Int → Option (Int × Int)
  | 0, _, _, _, _ => none
  | f + 1, t, newt, r, newr =>
    if newr = 0 then some (t, r)
    else egcdLoop f newt (t - r.tdiv newr * newt) newr (r - r.tdiv newr * newr)

/-- `F1Field::inv`: extended Euclid followed by a conditional order-addition.  The
source panics on zero; the model returns the junk value `0` there (no claim relies on
that value).  The fuel `newr.natAbs + 1` is sufficient because `newr` strictly
decreases in absolute value, so the `none` fallback (also mapped to `0`) is never
taken. -/
def F1Field.inv (f : F1Field) (a : Int) : Int :=
  if a = 0 then 0
  else
    let n0 := a.tmod f.order
    match egcdLoop (n0.natAbs + 1) 0 1 f.order n0 with
    | some (t, _) => if t < 0 then t + f.order else t
    | none => 0

/-- `F1Field::div`. -/
def F1Field.div (f : F1Field) (a b : Int) : Int := f.mul a (f.inv b)

/-- `F1Field::eq`. -/
def F1Field.eq (_ : F1Field) (a b : Int) : Bool := a == b

/-- `F1Field::square`. -/
def F1Field.square (f : F1Field) (a : Int) : Int := (a * a).tmod f.order

/-- `F1Field::lt`: signed comparison (values above `half` compare as `a - order`). -/
def F1Field.lt (f : F1Field) (a b : Int) : Bool :=
  let aa := if f.half < a then a - f.order else a
  let bb := if f.half < b then b - f.order else b
  aa < bb

/-- `F1Field::geq`: signed comparison. -/
def F1Field.geq (f : F1Field) (a b : Int) : Bool :=
  let aa := if f.half < a then a - f.order else a
  let bb := if f.half < b then b - f.order else b
  bb ≤ aa

/-- `F1Field::neg`. -/
def F1Field.neg (f : F1Field) (a : Int) : Int :=
  if a = 0 then a else f.order - a

/-- `F1Field::is_zero`. -/
def F1Field.is_zero (_ : F1Field) (a : Int) : Bool := a == 0

/-- The `for i in (0..bits.len() - 1).rev()` loop of `F1Field::pow`: the list argument
holds `bits[len-2], …, bits[0]` (most significant first, the top bit having been
consumed by the initial accumulator). -/
def F1Field.powAux (f : F1Field) (base : Int) : List Nat → Int → Int
  | [], res => res
  | b :: rest, res =>
    f.powAux base rest (if b = 1 then f.mul (f.square res) base else f.square res)

/-- `F1Field::pow`: square-and-multiply over `scalar::bits`, MSB consumed implicitly;
negative exponents invert the base. -/
def F1Field.pow (f : F1Field) (base exp : Int) : Int :=
  if exp = 0 then 1
  else
    let base' := if exp < 0 then f.inv base else base
    let exp' := if exp < 0 then -exp else exp
    let l := scalar.bits exp'
    if l = [] then 1
    else f.powAux base' (l.dropLast.reverse) base'

/-! ## `utils::conversions` (the little-endian byte codec used by the curve code) -/

/-- `le_bytes_to_bigint` (`BigInt::from_bytes_le` with positive sign). -/
def le_bytes_to_bigint (bytes : List Nat) : Int :=
  bytes.foldr (fun b acc => (b : Int) + 256 * acc) 0

/-- Fueled minimal little-endian byte expansion (`BigInt::to_bytes_le`); one fuel unit
per produced byte. -/
def natBytesAux : Nat → Nat → List Nat
  | 0, _ => []
  | _, 0 => []
  | f + 1, v => (v % 256) :: natBytesAux f (v / 256)

/-- `BigInt::to_bytes_le` magnitude bytes: `[0]` for zero, otherwise the minimal
little-endian digits of the absolute value. -/
def toBytesLE (v : Int) : List Nat :=
  if v = 0 then [0] else natBytesAux v.natAbs v.natAbs

/-- `le_bigint_to_bytes(v, Some(size))`: fails when the magnitude needs more than
`size` bytes, otherwise zero-pads on the high side. -/
def le_bigint_to_bytes (v : Int) (size : Nat) : Option (List Nat) :=
  let bytes := toBytesLE v
  if size < bytes.length then none
  else some (bytes ++ List.replicate (size - bytes.length) 0)

/-! ## `baby_jubjub` -/

/-- The BN254 scalar-field prime, as a natural number (for `ZMod`-level reasoning). -/
def P : Nat := 21888242871839275222246405745257275088548364400416034343698204186575808495617

/-- The constant `R` of `baby_jubjub/src/lib.rs`: the BN254 scalar-field prime. -/
def R : Int := 21888242871839275222246405745257275088548364400416034343698204186575808495617

/-- The constant `ORDER` of `baby_jubjub/src/lib.rs`: the order of the Baby Jubjub
curve group. -/
def ORDER : Int := 21888242871839275222246405745257275088614511777268538073601725287587578984328

/-- `SUBORDER = ORDER >> 3`, the prime subgroup order. -/
def SUBORDER : Int := scalar.shift_right ORDER 3

/-- The field instance `Fr = F1Field::new(R)`. -/
def Fr : F1Field := ⟨R⟩

/-- A curve point, an ordered pair of big integers. -/
abbrev Point := Int × Int

/-- The base point `BASE8` of `baby_jubjub/src/lib.rs`. -/
def BASE8 : Point :=
  (Fr.e 5299619240641551281634865583518297030282874472190772894086521144482721001553,
   Fr.e 16950150798460657717958625567821834550301663161624707787222815936182638968203)

/-- The twisted-Edwards coefficient `A = Fr.e(168700)`. -/
def A : Int := Fr.e 168700

/-- The twisted-Edwards coefficient `D = Fr.e(168696)`. -/
def D : Int := Fr.e 168696

/-- `add_point` from `baby_jubjub/src/lib.rs` (unified twisted-Edwards addition). -/
def add_point (p1 p2 : Point) : Point :=
  let beta := Fr.mul p1.1 p2.2
  let gamma := Fr.mul p1.2 p2.1
  let delta := Fr.mul (Fr.sub p1.2 (Fr.mul A p1.1)) (Fr.add p2.1 p2.2)
  let tau := Fr.mul beta gamma
  let dtau := Fr.mul D tau
  let x3 := Fr.div (Fr.add beta gamma) (Fr.add Fr.one dtau)
  let y3 := Fr.div (Fr.add delta (Fr.sub (Fr.mul A beta) gamma)) (Fr.sub Fr.one dtau)
  (x3, y3)

/-- Fueled body of the `while !is_zero(e)` loop of `mul_point_escalar`; state is the
accumulator `res`, the doubling point `exp`, and the remaining scalar `e`. -/
def mulLoop : Nat → Point → Point → Int → Option Point
  | 0, _, _, _ => none
  | f + 1, res, exp, e =>
    if scalar.is_zero e then some res
    else
      mulLoop f (if scalar.is_odd e then add_point res exp else res)
        (add_point exp exp) (scalar.shift_right e 1)

/-- `mul_point_escalar` from `baby_jubjub/src/lib.rs`: right-to-left double-and-add.
For `e ≥ 0` the fuel `e.natAbs + 1` is sufficient (the scalar at least halves each
round); for `e < 0` the source never terminates and the model falls back to the junk
value `(0, 1)`. -/
def mul_point_escalar (base : Point) (e : Int) : Point :=
  (mulLoop (e.natAbs + 1) (Fr.zero, Fr.one) base e).getD (Fr.zero, Fr.one)

/-- `in_curve` from `baby_jubjub/src/lib.rs`. -/
def in_curve (p : Point) : Bool :=
  let x2 := Fr.square p.1
  let y2 := Fr.square p.2
  Fr.eq (Fr.add (Fr.mul A x2) y2) (Fr.add Fr.one (Fr.mul (Fr.mul x2 y2) D))

/-- `pack_point` from `baby_jubjub/src/lib.rs`: 32 little-endian bytes of `y`, sign of
`x` in the top bit.  The source `unwrap`s the byte conversion; the failure (impossible
for the points the library produces) is modelled by the junk value `0`. -/
def pack_point (p : Point) : Int :=
  match le_bigint_to_bytes p.2 32 with
  | none => 0
  | some buffer =>
    let buffer' :=
      if Fr.lt p.1 Fr.zero then buffer.set 31 ((buffer.getD 31 0).lor 128) else buffer
    le_bytes_to_bigint buffer'

/-- The inner `while b2k ≠ 1 { b2k = square(b2k); k += 1 }` loop of `tonelli_shanks`,
fueled; starts from `b2k = square(b)`, `k = 1`. -/
def tsInner (fr : F1Field) : Nat → Int → Nat → Option Nat
  | 0, _, _ => none
  | f + 1, b2k, k => if fr.eq b2k fr.one then some k else tsInner fr f (fr.square b2k) (k + 1)

/-- The `for _ in 0..(v - k - 1)` squaring chain of `tonelli_shanks`. -/
def iterSquare (fr : F1Field) : Nat → Int → Int
  | 0, w => w
  | m + 1, w => iterSquare fr m (fr.square w)

/-- Fueled body of the outer `while b ≠ 1` loop of `tonelli_shanks`; state is
`(x, b, z, v)`. -/
def tsLoop (fr : F1Field) : Nat → Int → Int → Int → Nat → Option Int
  | 0, _, _, _, _ => none
  | f + 1, x, b, z, v =>
    if fr.eq b fr.one then some x
    else
      match tsInner fr v (fr.square b) 1 with
      | none => none
      | some k =>
        let w := iterSquare fr (v - k - 1) z
        let z' := fr.square w
        let b' := fr.mul b z'
        let x' := fr.mul x w
        tsLoop fr f x' b' z' k

/-- `tonelli_shanks` from `baby_jubjub/src/sqrt.rs`, with the precomputed parameters
for the prime `R` (`sqrt_s = 28`, the tuned `Z` and `(t-1)/2` constants).  The outer
loop gets fuel `sqrt_s + 1`, sufficient because `v` strictly decreases from `sqrt_s`;
the inner loop gets fuel `v`, sufficient because the least `k` is at most `v - 1`. -/
def tonelli_shanks (n : Int) (order : Int) : Option Int :=
  let fr : F1Field := ⟨order⟩
  let sqrt_s : Nat := 28
  let sqrt_z : Int := 5978345932401256595026418116861078668372907927053715034645334559810731495452
  let sqrt_tm1d2 : Int := 40770029410420498293352137776570907027550720424234931066070132305055
  if fr.is_zero n then some fr.zero
  else
    let w := fr.pow n sqrt_tm1d2
    let a0 := fr.pow (fr.mul (fr.square w) n) (2 ^ (sqrt_s - 1))
    if fr.eq a0 fr.negone then none
    else
      let x := fr.mul n w
      let b := fr.mul x w
      (tsLoop fr (sqrt_s + 1) x b sqrt_z sqrt_s).map
        (fun x => if fr.geq x fr.zero then x else fr.neg x)

/-- `unpack_point` from `baby_jubjub/src/lib.rs`. -/
def unpack_point (packed : Int) : Option Point :=
  match le_bigint_to_bytes packed 32 with
  | none => none
  | some buffer =>
    let sign := (buffer.getD 31 0).land 128 ≠ 0
    let buffer' := if sign then buffer.set 31 ((buffer.getD 31 0).land 127) else buffer
    let y := le_bytes_to_bigint buffer'
    if scalar.gt y R then none
    else
      let y2 := Fr.square y
      let den := Fr.sub A (Fr.mul D y2)
      let num := Fr.sub Fr.one y2
      match tonelli_shanks (Fr.div num den) R with
      | none => none
      | some x => some (if sign then (Fr.neg x, y) else (x, y))

/-! ## `eddsa_poseidon` -/

/-- `Signature` from `eddsa_poseidon/src/util_functions.rs`. -/
structure Signature where
  r8 : Point
  s : Int
deriving DecidableEq, Repr

/-- `prune_buffer` from `eddsa_poseidon/src/util_functions.rs`: RFC 8032-style
clamping of a 32-byte buffer. -/
def prune_buffer (buff : List Nat) : List Nat :=
  let b1 := buff.set 0 ((buff.getD 0 0).land 248)
  let b2 := b1.set 31 ((b1.getD 31 0).land 127)
  b2.set 31 ((b2.getD 31 0).lor 64)

/-- `poseidon5` from `eddsa_poseidon/src/lib.rs`: despite taking five nodes, the
source feeds only `nodes[0]` and `nodes[1]` to a width-2 Poseidon instance.  The
external hash (including the decimal-string round trip and the reduction into
`ark_bn254::Fr`) is the uninterpreted parameter `h2`. -/
def poseidon5 (h2 : Int → Int → Int) (nodes : List Int) : Int :=
  h2 (nodes.getD 0 0) (nodes.getD 1 0)

/-- `derive_secret_scalar` from `eddsa_poseidon/src/lib.rs`.  Note that the source
calls `prune_buffer(hash.clone())` and drops the pruned copy, so the pruning has no
effect; the model keeps the dead call verbatim.  The source `Result` is always `Ok`,
so the model returns the value directly. -/
def derive_secret_scalar (blake : List Nat → List Nat) (private_key : List Nat) : Int :=
  let hash := (blake private_key).take 32
  let _pruned := prune_buffer hash
  (scalar.shift_right (le_bytes_to_bigint hash) 3).tmod SUBORDER

/-- `derive_public_key` from `eddsa_poseidon/src/lib.rs`. -/
def derive_public_key (blake : List Nat → List Nat) (private_key : List Nat) : Point :=
  mul_point_escalar BASE8 (derive_secret_scalar blake private_key)

/-- `sign_message` from `eddsa_poseidon/src/lib.rs`.  As in the source, the pruned
copy of the first 32 hash bytes is dropped (`prune_buffer(s_bytes.to_vec())`), `r` is
reduced with `Fr.e` (modulo the field prime), and `S = r + hm·s` is reduced modulo the
field prime as well.  The only failure is the 32-byte conversion of the message. -/
def sign_message (blake : List Nat → List Nat) (h2 : Int → Int → Int)
    (private_key message : List Nat) : Option Signature :=
  let hash := blake private_key
  let s_bytes := hash.take 32
  let _pruned := prune_buffer s_bytes
  let s := le_bytes_to_bigint s_bytes
  let a := mul_point_escalar BASE8 (scalar.shift_right s 3)
  let msg_bigint := le_bytes_to_bigint message
  match le_bigint_to_bytes msg_bigint 32 with
  | none => none
  | some msg_buff =>
    let r_buff := blake ((hash.drop 32).take 32 ++ msg_buff)
    let r := Fr.e (le_bytes_to_bigint r_buff)
    let r8 := mul_point_escalar BASE8 r
    let hm := poseidon5 h2 [r8.1, r8.2, a.1, a.2, msg_bigint]
    some ⟨r8, Fr.add r (Fr.mul hm s)⟩

/-- `verify_signature` from `eddsa_poseidon/src/lib.rs`.  The source returns
`Ok(bool)` on every path, so the model returns `Bool` directly. -/
def verify_signature (h2 : Int → Int → Int) (message : List Nat) (signature : Signature)
    (public_key : Point) : Bool :=
  if !in_curve signature.r8 || !in_curve public_key then false
  else
    let message_bigint := le_bytes_to_bigint message
    let hm := poseidon5 h2
      [signature.r8.1, signature.r8.2, public_key.1, public_key.2, message_bigint]
    let p_left := mul_point_escalar BASE8 signature.s
    let p_right := add_point signature.r8 (mul_point_escalar public_key (scalar.mul hm 8))
    Fr.eq p_left.1 p_right.1 && Fr.eq p_left.2 p_right.2

/-- `pack_signature` from `eddsa_poseidon/src/lib.rs`: rejects when `R8` is off-curve
or `S ≥ SUBORDER`, otherwise emits compressed `R8` followed by 32 little-endian bytes
of `S`. -/
def pack_signature (sig : Signature) : Option (List Nat) :=
  if !in_curve sig.r8 || SUBORDER ≤ sig.s then none
  else
    match le_bigint_to_bytes (pack_point sig.r8) 32, le_bigint_to_bytes sig.s 32 with
    | some b1, some b2 => some (b1 ++ b2)
    | _, _ => none

/-! ## `identity` -/

/-- `Identity` from `identity/src/lib.rs`. -/
structure Identity where
  private_key : List Nat
  secret_scalar : Int
  public_key : Point
  commitment : Int
deriving DecidableEq, Repr

/-- `poseidon2` from `identity/src/lib.rs`: the same width-2 external Poseidon hash,
uninterpreted (`h2` absorbs the decimal-string round trip). -/
def poseidon2 (h2 : Int → Int → Int) (nodes : List Int) : Int :=
  h2 (nodes.getD 0 0) (nodes.getD 1 0)

/-- `Identity::new` with a supplied private key: the freshly drawn random bytes are
dead in this branch (the source draws them and then overwrites them with the supplied
key), so the model takes the key directly.  The source `Result` is always `Ok`. -/
def Identity.new (blake : List Nat → List Nat) (h2 : Int → Int → Int)
    (private_key : List Nat) : Identity :=
  let secret_scalar := derive_secret_scalar blake private_key
  let public_key := derive_public_key blake private_key
  let commitment := poseidon2 h2 [public_key.1, public_key.2]
  ⟨private_key, secret_scalar, public_key, commitment⟩

/-- `Identity::import`, modelled on the byte buffer produced by the external base64
decoder: it simply constructs the identity from those bytes. -/
def Identity.importDecoded (blake : List Nat → List Nat) (h2 : Int → Int → Int)
    (decoded : List Nat) : Identity :=
  Identity.new blake h2 decoded

/-- `Identity::generate_commitment` from `identity/src/lib.rs`. -/
def Identity.generate_commitment (h2 : Int → Int → Int) (public_key : Point) : Int :=
  poseidon2 h2 [public_key.1, public_key.2]

/-! ## Concrete instantiations of the external hashes, used in counterexamples -/

/-- A fixed instantiation of the abstract BLAKE-512 hash: every input maps to the
64-byte buffer `01 00 … 00`. -/
def blakeC (_ : List Nat) : List Nat := 1 :: List.replicate 63 0

/-- A fixed instantiation of the abstract BLAKE-512 hash: every input maps to 64 zero
bytes. -/
def blakeZero (_ : List Nat) : List Nat := List.replicate 64 0

/-- A fixed instantiation of the abstract two-input Poseidon hash: constantly `1`. -/
def h2one (_ _ : Int) : Int := 1

/-- A fixed instantiation of the abstract two-input Poseidon hash: constantly
`SUBORDER`. -/
def h2sub (_ _ : Int) : Int := SUBORDER

/-- The secret-scalar derivation as the spec words it in §4.F: BLAKE the key, PRUNE the
first 32 bytes, read them little-endian, shift right by 3 and reduce mod `SUBORDER`.
This differs from `derive_secret_scalar`, which drops the pruned buffer (used to
refute the claim that the code prunes). -/
def derive_secret_scalar_spec (blake : List Nat → List Nat) (private_key : List Nat) : Int :=
  let pruned := prune_buffer ((blake private_key).take 32)
  (scalar.shift_right (le_bytes_to_bigint pruned) 3).tmod SUBORDER

/-- Fueled fast modular exponentiation on naturals (one fuel unit per exponent bit);
a proof-side tool used to certify the primality of `P` via Lucas's theorem and to
evaluate Euler-criterion checks, not part of the embedded source. -/
def powmodAux : Nat → Nat → Nat → Nat → Nat
  | 0, _, _, n => 1 % n
  | f + 1, a, e, n =>
    if e = 0 then 1 % n
    else
      let h := powmodAux f a (e / 2) n
      if e % 2 = 1 then h * h % n * a % n else h * h % n

/-- `powmod a e n = a ^ e % n` for exponents below `2^300`. -/
def powmod (a e n : Nat) : Nat := powmodAux 300 a e n

/-! ## Canonical-range lemmas for the field operations -/

/-- `a` is in canonical form: a non-negative value below the field order. -/
def canon (a : Int) : Prop := 0 ≤ a ∧ a < R

instance (a : Int) : Decidable (canon a) := inferInstanceAs (Decidable (0 ≤ a ∧ a < R))

theorem R_pos : (0 : Int) < R := by decide

theorem canon_mul {a b : Int} (ha : 0 ≤ a) (hb : 0 ≤ b) : canon (Fr.mul a b) := by
  unfold F1Field.mul
  constructor
  · exact Int.tmod_nonneg _ (mul_nonneg ha hb)
  · exact Int.tmod_lt_of_pos _ R_pos

theorem canon_square {a : Int} (ha : 0 ≤ a) : canon (Fr.square a) :=
  canon_mul ha ha

theorem Fr_order_eq : Fr.order = R := rfl

theorem canon_add {a b : Int} (ha : canon a) (hb : canon b) : canon (Fr.add a b) := by
  unfold F1Field.add
  obtain ⟨ha0, ha1⟩ := ha
  obtain ⟨hb0, hb1⟩ := hb
  dsimp only
  rw [Fr_order_eq] at *
  constructor <;> split <;> omega

theorem canon_sub {a b : Int} (ha : canon a) (hb : canon b) : canon (Fr.sub a b) := by
  unfold F1Field.sub
  obtain ⟨ha0, ha1⟩ := ha
  obtain ⟨hb0, hb1⟩ := hb
  rw [Fr_order_eq] at *
  constructor <;> split <;> omega

theorem canon_neg {a : Int} (ha : canon a) : canon (Fr.neg a) := by
  unfold F1Field.neg
  obtain ⟨ha0, ha1⟩ := ha
  rw [Fr_order_eq] at *
  constructor <;> split <;> omega

theorem tmod_neg_dividend (a b : Int) : (-a).tmod b = -(a.tmod b) := by
  rw [Int.tmod_def, Int.tmod_def, Int.neg_tdiv]
  ring

theorem tmod_bounds {a b : Int} (hb : 0 < b) : -b < a.tmod b ∧ a.tmod b < b := by
  rcases le_or_lt 0 a with ha | ha
  · exact ⟨lt_of_lt_of_le (neg_neg_of_pos hb) (Int.tmod_nonneg b ha),
      Int.tmod_lt_of_pos a hb⟩
  · have h1 : a.tmod b = -((-a).tmod b) := by rw [tmod_neg_dividend]; ring
    have h2 : 0 ≤ (-a).tmod b := Int.tmod_nonneg b (by omega)
    have h3 : (-a).tmod b < b := Int.tmod_lt_of_pos _ hb
    omega

theorem canon_e {v : Int} : canon (Fr.e v) := by
  unfold F1Field.e
  have h := tmod_bounds (a := v) (b := Fr.order) R_pos
  dsimp only
  rw [Fr_order_eq] at *
  constructor <;> split <;> omega

/-! ## The `ZMod` bridge: casting canonical representatives into `ZMod P` -/

theorem R_eq_P : R = (P : Int) := rfl

theorem cast_R : ((R : Int) : ZMod P) = 0 := by
  rw [R_eq_P, Int.cast_natCast, ZMod.natCast_self]

theorem cast_tmod_R (a : Int) : ((a.tmod R : Int) : ZMod P) = (a : ZMod P) := by
  rw [Int.tmod_def]
  push_cast
  rw [cast_R]
  ring

theorem cast_mul (a b : Int) : ((Fr.mul a b : Int) : ZMod P) = (a : ZMod P) * (b : ZMod P) := by
  show (((a * b).tmod Fr.order : Int) : ZMod P) = _
  rw [Fr_order_eq, cast_tmod_R]
  push_cast
  ring

theorem cast_square (a : Int) : ((Fr.square a : Int) : ZMod P) = (a : ZMod P) * (a : ZMod P) := by
  show (((a * a).tmod Fr.order : Int) : ZMod P) = _
  rw [Fr_order_eq, cast_tmod_R]
  push_cast
  ring

theorem cast_add (a b : Int) : ((Fr.add a b : Int) : ZMod P) = (a : ZMod P) + (b : ZMod P) := by
  unfold F1Field.add
  dsimp only
  rw [Fr_order_eq]
  split
  · push_cast
    rw [cast_R]
    ring
  · push_cast
    ring

theorem cast_sub (a b : Int) : ((Fr.sub a b : Int) : ZMod P) = (a : ZMod P) - (b : ZMod P) := by
  unfold F1Field.sub
  rw [Fr_order_eq]
  split
  · push_cast
    ring
  · push_cast
    rw [cast_R]
    ring

theorem cast_neg (a : Int) : ((Fr.neg a : Int) : ZMod P) = -(a : ZMod P) := by
  unfold F1Field.neg
  split
  · subst a
    push_cast
    ring
  · show ((Fr.order - a : Int) : ZMod P) = _
    rw [Fr_order_eq, Int.cast_sub, cast_R]
    ring

theorem cast_e (v : Int) : ((Fr.e v : Int) : ZMod P) = (v : ZMod P) := by
  unfold F1Field.e
  dsimp only
  rw [Fr_order_eq]
  split
  · push_cast
    rw [cast_tmod_R, cast_R]
    ring
  · rw [cast_tmod_R]

theorem canon_inj {a b : Int} (ha : canon a) (hb : canon b)
    (h : (a : ZMod P) = (b : ZMod P)) : a = b := by
  rw [ZMod.intCast_eq_intCast_iff] at h
  have h2 : a % (P : Int) = b % (P : Int) := h
  rw [Int.emod_eq_of_lt ha.1 (R_eq_P ▸ ha.2), Int.emod_eq_of_lt hb.1 (R_eq_P ▸ hb.2)] at h2
  exact h2

theorem canon_A : canon A := canon_e

/-! ## Commutativity helpers for `add_point` -/

theorem Fr_mul_comm (a b : Int) : Fr.mul a b = Fr.mul b a := by
  unfold F1Field.mul
  rw [Int.mul_comm]

theorem Fr_add_comm (a b : Int) : Fr.add a b = Fr.add b a := by
  unfold F1Field.add
  rw [Int.add_comm]

/-- The `y`-numerator of the unified addition formula is symmetric in the two points
(as canonical values, both sides reduce to `y1·y2 - A·x1·x2` in the field). -/
theorem ynum_symm {x1 y1 x2 y2 : Int} (hx1 : canon x1) (hy1 : canon y1)
    (hx2 : canon x2) (hy2 : canon y2) :
    Fr.add (Fr.mul (Fr.sub y1 (Fr.mul A x1)) (Fr.add x2 y2))
      (Fr.sub (Fr.mul A (Fr.mul x1 y2)) (Fr.mul y1 x2))
    = Fr.add (Fr.mul (Fr.sub y2 (Fr.mul A x2)) (Fr.add x1 y1))
      (Fr.sub (Fr.mul A (Fr.mul x2 y1)) (Fr.mul y2 x1)) := by
  have c1 : canon (Fr.add (Fr.mul (Fr.sub y1 (Fr.mul A x1)) (Fr.add x2 y2))
      (Fr.sub (Fr.mul A (Fr.mul x1 y2)) (Fr.mul y1 x2))) :=
    canon_add
      (canon_mul (canon_sub hy1 (canon_mul canon_A.1 hx1.1)).1
        (canon_add hx2 hy2).1)
      (canon_sub (canon_mul canon_A.1 (canon_mul hx1.1 hy2.1).1)
        (canon_mul hy1.1 hx2.1))
  have c2 : canon (Fr.add (Fr.mul (Fr.sub y2 (Fr.mul A x2)) (Fr.add x1 y1))
      (Fr.sub (Fr.mul A (Fr.mul x2 y1)) (Fr.mul y2 x1))) :=
    canon_add
      (canon_mul (canon_sub hy2 (canon_mul canon_A.1 hx2.1)).1
        (canon_add hx1 hy1).1)
      (canon_sub (canon_mul canon_A.1 (canon_mul hx2.1 hy1.1).1)
        (canon_mul hy2.1 hx1.1))
  refine canon_inj c1 c2 ?_
  simp only [cast_add, cast_sub, cast_mul]
  ring


/-! ## Helper lemmas for the termination claim (C10) -/

theorem shift_right_one_eq (e : Int) : scalar.shift_right e 1 = e / 2 := by
  unfold scalar.shift_right
  rw [Int.fdiv_eq_ediv _ (by norm_num)]
  norm_num

theorem shift_right_one_neg {e : Int} (he : e < 0) : scalar.shift_right e 1 < 0 := by
  rw [shift_right_one_eq]
  have h1 := Int.ediv_add_emod e 2
  have h2 := Int.emod_nonneg e (b := 2) (by norm_num)
  have h3 := Int.emod_lt_of_pos e (b := 2) (by norm_num)
  omega

theorem shift_right_one_nonneg {e : Int} (he : 0 ≤ e) : 0 ≤ scalar.shift_right e 1 := by
  rw [shift_right_one_eq]
  have h1 := Int.ediv_add_emod e 2
  have h2 := Int.emod_nonneg e (b := 2) (by norm_num)
  have h3 := Int.emod_lt_of_pos e (b := 2) (by norm_num)
  omega

theorem shift_right_one_lt {e : Int} (he : 0 < e) : scalar.shift_right e 1 < e := by
  rw [shift_right_one_eq]
  have h1 := Int.ediv_add_emod e 2
  have h2 := Int.emod_nonneg e (b := 2) (by norm_num)
  have h3 := Int.emod_lt_of_pos e (b := 2) (by norm_num)
  omega

theorem mulLoop_none_of_neg : ∀ (fuel : Nat) (res exp : Point) (e : Int), e < 0 →
    mulLoop fuel res exp e = none := by
  intro fuel
  induction fuel with
  | zero => intro _ _ _ _; rfl
  | succ f ih =>
    intro res exp e he
    unfold mulLoop
    have hz : scalar.is_zero e = false := by
      unfold scalar.is_zero
      simp only [beq_eq_false_iff_ne, ne_eq]
      omega
    rw [hz]
    simp only [Bool.false_eq_true, if_false]
    exact ih _ _ _ (shift_right_one_neg he)

theorem mulLoop_some_of_nonneg : ∀ (n : Nat) (e : Int), 0 ≤ e → e < (n : Int) →
    ∀ res exp, (mulLoop n res exp e).isSome = true := by
  intro n
  induction n with
  | zero => intro e he hlt; omega
  | succ f ih =>
    intro e he hlt res exp
    unfold mulLoop
    by_cases hz : e = 0
    · subst hz
      simp [scalar.is_zero]
    · have hz' : scalar.is_zero e = false := by
        unfold scalar.is_zero
        simp only [beq_eq_false_iff_ne, ne_eq]
        exact hz
      rw [hz']
      simp only [Bool.false_eq_true, if_false]
      have he' : 0 < e := by omega
      exact ih _ (shift_right_one_nonneg he) (by
        have := shift_right_one_lt he'
        push_cast at hlt ⊢
        omega) _ _

/-! ## The claims -/

/-- C1: the claim states `verify_signature (msg, sign_message (sk, msg),
derive_public_key sk) = true` for every `sk` and `msg` (hashes treated as fixed
functions).  The code violates it: with the fixed hashes `blakeC` (constant 64-byte
buffer `01 00 … 00`) and `h2one` (constantly 1), signing the empty message with the
empty key yields the signature `(BASE8, 2)` and the public key `(0, 1)`, and
verification of that fresh signature returns `false` — the secret scalar is used
unpruned (the `prune_buffer` result is dropped) and `S` is reduced modulo the field
prime rather than the subgroup order, so `S·B ≠ R8 + 8·hm·pk`. -/
theorem claim_C1 :
    sign_message blakeC h2one [] [] = some ⟨BASE8, 2⟩ ∧
    derive_public_key blakeC [] = (Fr.zero, Fr.one) ∧
    verify_signature h2one [] ⟨BASE8, 2⟩ (Fr.zero, Fr.one) = false :=
  ⟨by decide!, by decide!, by decide!⟩

/-- C2: the claim states that `derive_secret_scalar sk = (S >> 3) mod SUBORDER` with
`S` read from the PRUNED first 32 bytes of `BLAKE-512(sk)`.  The code computes the
same expression from the UNPRUNED bytes (`prune_buffer(hash.clone())` discards its
result).  With the fixed hash `blakeZero` (64 zero bytes) the code returns `0`, while
the claim's pruned formula gives `2^251 mod SUBORDER ≠ 0`. -/
theorem claim_C2 :
    derive_secret_scalar blakeZero [] = 0 ∧
    derive_secret_scalar_spec blakeZero [] =
      882472429686221704205792563364337734337873048642700367032833839298837928207 ∧
    derive_secret_scalar blakeZero [] ≠ derive_secret_scalar_spec blakeZero [] :=
  ⟨by decide!, by decide!, by decide!⟩

/-- C3: verification ignores the message: `poseidon5` reads only the first two of its
five inputs (the `R8` coordinates), and the message reaches verification nowhere else,
so `verify_signature` returns the same answer on any two messages. -/
theorem claim_C3 (h2 : Int → Int → Int) (sig : Signature) (pk : Point)
    (m1 m2 : List Nat) :
    verify_signature h2 m1 sig pk = verify_signature h2 m2 sig pk := rfl

/-- C7: every identity built by `Identity.new` from supplied private-key bytes (and
every imported identity, which is `Identity.new` on the decoded bytes) satisfies the
invariants: `secret_scalar = derive_secret_scalar private_key`, `public_key =
secret_scalar · BASE8`, `commitment = Poseidon2(public_key.x, public_key.y)`; all
fields are functions of the private-key bytes alone (the constructor's random draw is
dead in this branch). -/
theorem claim_C7 (blake : List Nat → List Nat) (h2 : Int → Int → Int) (sk : List Nat) :
    (Identity.new blake h2 sk).private_key = sk ∧
    (Identity.new blake h2 sk).secret_scalar = derive_secret_scalar blake sk ∧
    (Identity.new blake h2 sk).public_key =
      mul_point_escalar BASE8 ((Identity.new blake h2 sk).secret_scalar) ∧
    (Identity.new blake h2 sk).commitment =
      Identity.generate_commitment h2 ((Identity.new blake h2 sk).public_key) ∧
    Identity.importDecoded blake h2 sk = Identity.new blake h2 sk :=
  ⟨rfl, rfl, rfl, rfl, rfl⟩

/-- C9: point addition is commutative on canonical points for which both computations
are defined (nonzero denominators): the `x`-numerator, the `y`-numerator and the two
denominators are symmetric in the two arguments (the `y`-numerator reduces to
`y1·y2 − A·x1·x2` both ways). -/
theorem claim_C9 (p q : Point) (hp1 : canon p.1) (hp2 : canon p.2)
    (hq1 : canon q.1) (hq2 : canon q.2)
    (hd1 : Fr.add Fr.one (Fr.mul D (Fr.mul (Fr.mul p.1 q.2) (Fr.mul p.2 q.1))) ≠ 0)
    (hd2 : Fr.sub Fr.one (Fr.mul D (Fr.mul (Fr.mul p.1 q.2) (Fr.mul p.2 q.1))) ≠ 0) :
    add_point p q = add_point q p := by
  clear hd1 hd2
  unfold add_point
  dsimp only
  have hB : Fr.mul q.1 p.2 = Fr.mul p.2 q.1 := Fr_mul_comm _ _
  have hG : Fr.mul q.2 p.1 = Fr.mul p.1 q.2 := Fr_mul_comm _ _
  rw [hB, hG]
  have htau : Fr.mul (Fr.mul p.2 q.1) (Fr.mul p.1 q.2)
      = Fr.mul (Fr.mul p.1 q.2) (Fr.mul p.2 q.1) := Fr_mul_comm _ _
  rw [htau]
  have hxnum : Fr.add (Fr.mul p.2 q.1) (Fr.mul p.1 q.2)
      = Fr.add (Fr.mul p.1 q.2) (Fr.mul p.2 q.1) := Fr_add_comm _ _
  rw [hxnum]
  have hynum := ynum_symm hp1 hp2 hq1 hq2
  rw [Fr_mul_comm q.1 p.2, Fr_mul_comm q.2 p.1] at hynum
  rw [← hynum]

/-- C10: for every base point and every `e ≥ 0` the double-and-add loop of
`mul_point_escalar` terminates within `e.natAbs + 1` rounds (the scalar at least
halves each round), so the fueled model returns a value; for `e < 0` the loop
condition never becomes false (arithmetic right shift keeps negatives negative), so no
amount of fuel produces a result. -/
theorem claim_C10 (base : Point) (e : Int) :
    (0 ≤ e → (mulLoop (e.natAbs + 1) (Fr.zero, Fr.one) base e).isSome = true) ∧
    (e < 0 → ∀ (fuel : Nat) (res exp : Point), mulLoop fuel res exp e = none) := by
  constructor
  · intro he
    refine mulLoop_some_of_nonneg _ _ he ?_ _ _
    rw [Nat.cast_add, Nat.cast_one, Int.natAbs_of_nonneg he]
    omega
  · intro he fuel res exp
    exact mulLoop_none_of_neg fuel res exp e he

/-- Witness for C10 at `e = 5` and (for the negative branch) `e = -3`. -/
theorem claim_C10_witness :
    (mulLoop ((5 : Int).natAbs + 1) (Fr.zero, Fr.one) BASE8 5).isSome = true ∧
    mulLoop 7 (Fr.zero, Fr.one) BASE8 (-3) = none :=
  ⟨(claim_C10 BASE8 5).1 (by decide), (claim_C10 BASE8 (-3)).2 (by decide) 7 _ _⟩

/-- Witness for C9 at `p = BASE8` and `q = 2·BASE8` (concrete canonical points with
nonzero denominators). -/
theorem claim_C9_witness :
    canon (10031262171927540148667355526369034398030886437092045105752248699557385197826 : Int) ∧
    canon (633281375905621697187330766174974863687049529291089048651929454608812697683 : Int) ∧
    add_point BASE8
      (10031262171927540148667355526369034398030886437092045105752248699557385197826,
       633281375905621697187330766174974863687049529291089048651929454608812697683)
    = add_point
      (10031262171927540148667355526369034398030886437092045105752248699557385197826,
       633281375905621697187330766174974863687049529291089048651929454608812697683)
      BASE8 :=
  ⟨by decide, by decide,
    claim_C9 BASE8
      (10031262171927540148667355526369034398030886437092045105752248699557385197826,
       633281375905621697187330766174974863687049529291089048651929454608812697683)
      (by decide) (by decide) (by decide) (by decide) (by decide!) (by decide!)⟩

/-! ## Little-endian byte codec lemmas -/

theorem le_nil : le_bytes_to_bigint [] = 0 := rfl

theorem le_cons (b : Nat) (l : List Nat) :
    le_bytes_to_bigint (b :: l) = (b : Int) + 256 * le_bytes_to_bigint l := rfl

theorem le_append (l1 l2 : List Nat) :
    le_bytes_to_bigint (l1 ++ l2)
    = le_bytes_to_bigint l1 + 256 ^ l1.length * le_bytes_to_bigint l2 := by
  induction l1 with
  | nil => simp [le_nil]
  | cons b l ih =>
    simp only [List.cons_append, le_cons, ih, List.length_cons]
    ring

theorem le_nonneg (l : List Nat) : 0 ≤ le_bytes_to_bigint l := by
  induction l with
  | nil => simp [le_nil]
  | cons b l ih =>
    rw [le_cons]
    positivity

theorem le_lt (l : List Nat) (h : ∀ b ∈ l, b < 256) :
    le_bytes_to_bigint l < 256 ^ l.length := by
  induction l with
  | nil => simp [le_nil]
  | cons b l ih =>
    rw [le_cons, List.length_cons]
    have hb : (b : Int) < 256 := by
      have := h b (by simp)
      exact_mod_cast this
    have hl := ih (fun x hx => h x (by simp [hx]))
    have h0 := le_nonneg l
    calc (b : Int) + 256 * le_bytes_to_bigint l
        ≤ 255 + 256 * le_bytes_to_bigint l := by omega
      _ < 256 * (le_bytes_to_bigint l + 1) := by ring_nf; omega
      _ ≤ 256 * 256 ^ l.length := by
          have : le_bytes_to_bigint l + 1 ≤ 256 ^ l.length := by omega
          exact mul_le_mul_of_nonneg_left this (by norm_num)
      _ = 256 ^ (l.length + 1) := by ring

theorem le_replicate_zero (k : Nat) : le_bytes_to_bigint (List.replicate k 0) = 0 := by
  induction k with
  | zero => rfl
  | succ n ih =>
    rw [List.replicate_succ, le_cons, ih]
    norm_num

theorem natBytesAux_succ (f v : Nat) (hv : v ≠ 0) :
    natBytesAux (f + 1) v = (v % 256) :: natBytesAux f (v / 256) := by
  match v with
  | w + 1 => rfl

theorem natBytesAux_le (f : Nat) : ∀ v : Nat, v ≤ f →
    le_bytes_to_bigint (natBytesAux f v) = (v : Int) := by
  induction f with
  | zero =>
    intro v hv
    interval_cases v
    rfl
  | succ f ih =>
    intro v hv
    rcases Nat.eq_zero_or_pos v with h0 | h0
    · subst h0; rfl
    · rw [natBytesAux_succ f v (by omega), le_cons, ih (v / 256) (by
        have h1 : v / 256 < v := Nat.div_lt_self (by omega) (by norm_num)
        omega)]
      have := Nat.div_add_mod v 256
      push_cast
      omega

theorem natBytesAux_len (f : Nat) : ∀ v k : Nat, v < 256 ^ k →
    (natBytesAux f v).length ≤ k := by
  induction f with
  | zero => intro v k _; simp [natBytesAux]
  | succ f ih =>
    intro v k hv
    rcases Nat.eq_zero_or_pos v with h0 | h0
    · subst h0; simp [natBytesAux]
    · rw [natBytesAux_succ f v (by omega), List.length_cons]
      match k with
      | 0 =>
        have : v < 1 := by simpa using hv
        omega
      | k + 1 =>
        have hdiv : v / 256 < 256 ^ k := by
          rw [Nat.div_lt_iff_lt_mul (by norm_num)]
          calc v < 256 ^ (k + 1) := hv
            _ = 256 ^ k * 256 := by ring
        have h2 := ih (v / 256) k hdiv
        omega

theorem natBytesAux_digits (f : Nat) : ∀ v : Nat, ∀ b ∈ natBytesAux f v, b < 256 := by
  induction f with
  | zero => intro v b hb; simp [natBytesAux] at hb
  | succ f ih =>
    intro v b hb
    rcases Nat.eq_zero_or_pos v with h0 | h0
    · subst h0; simp [natBytesAux] at hb
    · rw [natBytesAux_succ f v (by omega)] at hb
      rcases List.mem_cons.mp hb with h | h
      · subst h; exact Nat.mod_lt _ (by norm_num)
      · exact ih _ b h

/-- The padded 32-byte conversion succeeds on values in `[0, 2^256)` and round-trips. -/
theorem le_bigint_some {v : Int} (hv : 0 ≤ v) (hlt : v < 2 ^ 256) :
    ∃ l, le_bigint_to_bytes v 32 = some l ∧ l.length = 32 ∧
      le_bytes_to_bigint l = v ∧ (∀ b ∈ l, b < 256) := by
  have hfit : v.natAbs < 256 ^ 32 := by
    have h1 : (v.natAbs : Int) = v := Int.natAbs_of_nonneg hv
    have h2 : ((256 ^ 32 : Nat) : Int) = 2 ^ 256 := by norm_num
    omega
  have hlen : (toBytesLE v).length ≤ 32 := by
    unfold toBytesLE
    split
    · simp
    · exact natBytesAux_len _ _ _ hfit
  have hval : le_bytes_to_bigint (toBytesLE v) = v := by
    unfold toBytesLE
    split
    · subst v; rfl
    · rw [natBytesAux_le _ _ (le_refl _), Int.natAbs_of_nonneg hv]
  have hdig : ∀ b ∈ toBytesLE v, b < 256 := by
    unfold toBytesLE
    split
    · intro b hb; simp at hb; omega
    · exact natBytesAux_digits _ _
  refine ⟨toBytesLE v ++ List.replicate (32 - (toBytesLE v).length) 0, ?_, ?_, ?_, ?_⟩
  · unfold le_bigint_to_bytes
    rw [if_neg (by omega)]
  · rw [List.length_append, List.length_replicate]
    omega
  · rw [le_append, le_replicate_zero, hval]
    ring
  · intro b hb
    rcases List.mem_append.mp hb with h | h
    · exact hdig b h
    · have := List.eq_of_mem_replicate h
      omega

/-- Decomposition of a 32-byte buffer into its low 31 bytes and its top byte. -/
theorem le_split31 (l : List Nat) (h : l.length = 32) :
    le_bytes_to_bigint l
    = le_bytes_to_bigint (l.take 31) + 256 ^ 31 * (l.getD 31 0) := by
  have h31 : 31 < l.length := by omega
  have hdec : l.take 31 ++ l.getD 31 0 :: l.drop 32 = l := by
    rw [List.getD_eq_getElem l 0 h31]
    have := List.take_append_drop 31 l
    conv_rhs => rw [← this]
    congr 1
    have : l.drop 31 = l[31] :: l.drop 32 := List.drop_eq_getElem_cons h31
    rw [this]
  conv_lhs => rw [← hdec]
  rw [le_append, le_cons]
  have hlen : (l.take 31).length = 31 := by
    rw [List.length_take]
    omega
  rw [hlen]
  have hdrop : l.drop 32 = [] := List.drop_eq_nil_of_le (by omega)
  rw [hdrop, le_nil]
  ring

/-- `List.set` at index 31 of a 32-byte buffer replaces the top byte. -/
theorem le_set31 (l : List Nat) (h : l.length = 32) (c : Nat) :
    le_bytes_to_bigint (l.set 31 c)
    = le_bytes_to_bigint (l.take 31) + 256 ^ 31 * c := by
  have h31 : (31 : Nat) < l.length := by omega
  rw [List.set_eq_take_append_cons_drop, if_pos h31, le_append, le_cons]
  have hlen : (l.take 31).length = 31 := by
    rw [List.length_take]
    omega
  have hdrop : l.drop 32 = [] := List.drop_eq_nil_of_le (by omega)
  rw [hlen, hdrop, le_nil]
  ring

theorem land127_eq : ∀ b : Nat, b < 256 → b.land 127 = b % 128 := by decide!

theorem land128_ne : ∀ b : Nat, b < 256 → (b.land 128 ≠ 0 ↔ 128 ≤ b) := by decide!

theorem lor128_eq : ∀ b : Nat, b < 128 → b.lor 128 = b + 128 := by decide!

/-! ## C4: unpacking and the decoded `y` -/

/-- On any packed value in `[0, 2^256)` whose low 255 bits decode to a `y` strictly
above `R`, `unpack_point` fails at the `gt` check. -/
theorem unpack_none_of_y_gt (packed : Int) (h0 : 0 ≤ packed) (h1 : packed < 2 ^ 256)
    (hy : R < packed.emod (2 ^ 255)) : unpack_point packed = none := by
  obtain ⟨l, hsome, hlen, hval, hdig⟩ := le_bigint_some h0 h1
  have h31 : (31 : Nat) < l.length := by omega
  have hb31lt : l.getD 31 0 < 256 := by
    rw [List.getD_eq_getElem l 0 h31]
    exact hdig _ (List.getElem_mem h31)
  have hsplit := le_split31 l hlen
  have hlow0 : 0 ≤ le_bytes_to_bigint (l.take 31) := le_nonneg _
  have hlowlt : le_bytes_to_bigint (l.take 31) < 256 ^ 31 := by
    have := le_lt (l.take 31) (fun b hb => hdig b (List.take_subset _ _ hb))
    have hlen31 : (l.take 31).length = 31 := by
      rw [List.length_take]
      omega
    rwa [hlen31] at this
  have hpow : (256 : Int) ^ 31 = 2 ^ 248 := by norm_num
  rw [hpow] at hsplit hlowlt
  have hmod : ∀ q y : Int, 0 ≤ y → y < 2 ^ 255 → packed = 2 ^ 255 * q + y →
      packed.emod (2 ^ 255) = y := by
    intro q y hy0 hylt heq
    exact ((Int.ediv_emod_unique (a := packed) (b := 2 ^ 255) (q := q) (r := y)
      (by positivity)).mpr ⟨by omega, hy0, hylt⟩).2
  unfold unpack_point
  rw [hsome]
  dsimp only
  set b31 := l.getD 31 0 with hb31def
  by_cases hs : b31.land 128 ≠ 0
  · rw [if_pos hs, land127_eq b31 hb31lt]
    have hset := le_set31 l hlen (b31 % 128)
    rw [hpow] at hset
    set y := le_bytes_to_bigint (l.set 31 (b31 % 128)) with hydef
    have hy0 : 0 ≤ y := le_nonneg _
    have hm : b31 % 128 < 128 := Nat.mod_lt _ (by norm_num)
    have hmI : ((b31 % 128 : Nat) : Int) ≤ 127 := by exact_mod_cast Nat.le_of_lt_succ hm
    have hcast : ((b31 % 128 : Nat) : Int) = (b31 : Int) % 128 := by push_cast; ring
    have hylt : y < 2 ^ 255 := by
      rw [hset]
      omega
    have heq : packed = 2 ^ 255 * ((b31 : Int) / 128) + y := by
      rw [hset, ← hval, hsplit]
      omega
    rw [hmod _ y hy0 hylt heq] at hy
    have hgt : scalar.gt y R = true := by
      unfold scalar.gt
      simpa using hy
    simp [hgt]
  · rw [if_neg hs]
    have hlt128 : b31 < 128 := by
      by_contra hcon
      exact hs ((land128_ne b31 hb31lt).mpr (by omega))
    have hb31I : (b31 : Int) ≤ 127 := by exact_mod_cast Nat.le_of_lt_succ hlt128
    have hy0 : 0 ≤ packed := h0
    have hylt : packed < 2 ^ 255 := by
      rw [← hval, hsplit]
      omega
    have heq : packed = 2 ^ 255 * 0 + packed := by ring
    have hm2 := hmod 0 packed hy0 hylt heq
    rw [hm2] at hy
    have hgt : scalar.gt (le_bytes_to_bigint l) R = true := by
      unfold scalar.gt
      rw [hval]
      simpa using hy
    simp [hgt]

/-- C4 (counterexample): the claim says every packed value whose decoded `y`
satisfies `y ≥ R` is rejected, and in particular packing a point with `y = R` and
unpacking it fails.  The code checks `gt y R` (strict), so `y = R` slips through:
packing `(x0, R)` gives the packed value `R` (whose decoded `y` is `R` itself), and
unpacking succeeds, returning the same point — `(1 − R²)/(A − D·R²) = 1/A` is a
quadratic residue. -/
theorem claim_C4_counterexample :
    R.emod (2 ^ 255) = R ∧
    pack_point
      (2957874849018779266517920829765869116077630550401372566248359756137677864698, R)
      = R ∧
    unpack_point R = some
      (2957874849018779266517920829765869116077630550401372566248359756137677864698, R) :=
  ⟨by decide!, by decide!, by decide!⟩

/-- C4 (amended): `unpack_point` fails on every 256-bit packed value whose decoded
`y` (the low 255 bits) is STRICTLY greater than `R`; the boundary case `y = R`
passes the check (the code tests `y > R`, not `y ≥ R`). -/
theorem claim_C4 (packed : Int) (h0 : 0 ≤ packed) (h1 : packed < 2 ^ 256)
    (hy : R < packed.emod (2 ^ 255)) : unpack_point packed = none :=
  unpack_none_of_y_gt packed h0 h1 hy

/-- Witness for the amended C4 at `packed = R + 1` (decoded `y = R + 1 > R`). -/
theorem claim_C4_witness :
    0 ≤ R + 1 ∧ R + 1 < (2 : Int) ^ 256 ∧ R < (R + 1).emod (2 ^ 255) ∧
    unpack_point (R + 1) = none :=
  ⟨by decide, by decide, by decide!,
    claim_C4 (R + 1) (by decide) (by decide) (by decide!)⟩

/-! ## `pack_point` on canonical points -/

/-- On canonical coordinates, `pack_point` emits `y` with the sign of `x` in bit 255:
the packed value is `y + 2^255` when `x` is signed-negative, and `y` otherwise. -/
theorem pack_point_eq {p : Point} (hy : canon p.2) :
    pack_point p = p.2 + (if Fr.lt p.1 Fr.zero then 2 ^ 255 else 0) := by
  have hylt : p.2 < 2 ^ 256 := by
    have h1 : R < (2 : Int) ^ 256 := by decide
    have h2 := hy.2
    omega
  obtain ⟨l, hsome, hlen, hval, hdig⟩ := le_bigint_some hy.1 hylt
  have h31 : (31 : Nat) < l.length := by omega
  have hsplit := le_split31 l hlen
  have hlow0 : 0 ≤ le_bytes_to_bigint (l.take 31) := le_nonneg _
  have hlowlt : le_bytes_to_bigint (l.take 31) < 256 ^ 31 := by
    have := le_lt (l.take 31) (fun b hb => hdig b (List.take_subset _ _ hb))
    have hlen31 : (l.take 31).length = 31 := by
      rw [List.length_take]
      omega
    rwa [hlen31] at this
  have hpow : (256 : Int) ^ 31 = 2 ^ 248 := by norm_num
  rw [hpow] at hsplit hlowlt
  set b31 := l.getD 31 0 with hb31def
  have hb31small : (b31 : Int) < 64 := by
    have hyR : p.2 < R := hy.2
    have hR : R < (2 : Int) ^ 254 := by decide
    by_contra hcon
    push_neg at hcon
    have : (2 : Int) ^ 248 * 64 ≤ le_bytes_to_bigint l := by
      rw [hsplit]
      nlinarith
    rw [hval] at this
    norm_num at this
    omega
  have hb31n : b31 < 64 := by exact_mod_cast hb31small
  unfold pack_point
  rw [hsome]
  dsimp only
  split
  · rw [lor128_eq b31 (by omega)]
    have hset := le_set31 l hlen (b31 + 128)
    rw [hpow] at hset
    rw [hset, ← hval, hsplit]
    push_cast
    ring
  · rw [hval]
    ring

/-- Canonical points pack into `[0, 2^256)`. -/
theorem pack_point_range {p : Point} (hy : canon p.2) :
    0 ≤ pack_point p ∧ pack_point p < 2 ^ 256 := by
  rw [pack_point_eq hy]
  have h1 := hy.1
  have h2 := hy.2
  have hR : R < (2 : Int) ^ 254 := by decide
  split <;> omega

/-- C6: on canonical signatures, `pack_signature` fails exactly when `R8` is
off-curve or `S ≥ SUBORDER`; a success is the 64-byte concatenation of the 32
little-endian bytes of the compressed `R8` and the 32 little-endian bytes of `S`.
Moreover `sign_message` can produce rejected signatures: with the fixed hashes
`blakeC` and `h2sub` (constantly `SUBORDER`), signing the empty message with the
empty key yields `S = SUBORDER + 1`, which `pack_signature` rejects. -/
theorem claim_C6 :
    (∀ sig : Signature, canon sig.r8.1 → canon sig.r8.2 → 0 ≤ sig.s →
      ((pack_signature sig = none ↔ (in_curve sig.r8 = false ∨ SUBORDER ≤ sig.s)) ∧
       (∀ out, pack_signature sig = some out →
         out.length = 64 ∧
         le_bigint_to_bytes (pack_point sig.r8) 32 = some (out.take 32) ∧
         le_bigint_to_bytes sig.s 32 = some (out.drop 32)))) ∧
    sign_message blakeC h2sub [] [] = some ⟨BASE8, SUBORDER + 1⟩ ∧
    pack_signature ⟨BASE8, SUBORDER + 1⟩ = none := by
  refine ⟨?_, by decide!, by decide!⟩
  intro sig hx hy hs
  have hiff : (!in_curve sig.r8 || decide (SUBORDER ≤ sig.s)) = true ↔
      (in_curve sig.r8 = false ∨ SUBORDER ≤ sig.s) := by
    rcases h : in_curve sig.r8 <;> by_cases h2 : SUBORDER ≤ sig.s <;> simp [h, h2]
  by_cases hcond : (!in_curve sig.r8 || decide (SUBORDER ≤ sig.s)) = true
  · have hnone : pack_signature sig = none := by
      unfold pack_signature
      rw [if_pos hcond]
    constructor
    · simp only [hnone, true_iff]
      exact hiff.mp hcond
    · intro out hout
      rw [hnone] at hout
      exact absurd hout (by simp)
  · have hpack := pack_point_range hy
    obtain ⟨b1, hb1, hb1len, _, _⟩ := le_bigint_some hpack.1 hpack.2
    have hnot := (not_congr hiff).mp hcond
    push_neg at hnot
    have hslt : sig.s < 2 ^ 256 := by
      have h1 : SUBORDER < (2 : Int) ^ 256 := by decide
      have h2 := hnot.2
      omega
    obtain ⟨b2, hb2, hb2len, _, _⟩ := le_bigint_some hs hslt
    have hsome : pack_signature sig = some (b1 ++ b2) := by
      unfold pack_signature
      rw [if_neg hcond, hb1, hb2]
    constructor
    · rw [hsome]
      constructor
      · intro hcontra
        exact (Option.some_ne_none _ hcontra).elim
      · intro hrhs
        exact absurd (hiff.mpr hrhs) hcond
    · intro out hout
      rw [hsome] at hout
      injection hout with hout
      subst hout
      refine ⟨?_, ?_, ?_⟩
      · rw [List.length_append, hb1len, hb2len]
      · rw [List.take_left' hb1len, hb1]
      · rw [List.drop_left' hb1len, hb2]

/-- Witness for C6 at the canonical signature `(BASE8, 3)` (on-curve, `S < SUBORDER`,
so packing succeeds). -/
theorem claim_C6_witness :
    canon BASE8.1 ∧ canon BASE8.2 ∧ (0 : Int) ≤ 3 ∧
    (pack_signature ⟨BASE8, 3⟩ = none ↔
      (in_curve BASE8 = false ∨ SUBORDER ≤ (3 : Int))) :=
  ⟨by decide, by decide, by decide,
    ((claim_C6.1 ⟨BASE8, 3⟩ (by decide) (by decide) (by decide)).1)⟩

/-! ## Extended-Euclid invariants for `F1Field.inv` (C8, and division for C5) -/

theorem R_ge_two : (2 : Int) ≤ R := by decide

/-- Invariant-carrying induction over the extended-Euclidean loop.  The invariants:
`0 < rr`, `0 ≤ newr < rr`, the Bezout coefficients alternate in sign with
non-decreasing magnitude, `|t|·newr + |newt|·rr = R`, and both accumulated
congruences hold modulo `R`. -/
theorem egcdLoop_ind (a : Int) : ∀ (fuel : Nat) (t newt rr newr : Int),
    0 < rr → 0 ≤ newr → newr < rr →
    t * newt ≤ 0 → (t.natAbs : Int) ≤ (newt.natAbs : Int) →
    (t.natAbs : Int) * newr + (newt.natAbs : Int) * rr = R →
    R ∣ (t * a - rr) → R ∣ (newt * a - newr) →
    newr.natAbs < fuel →
    ∃ tf rf ntf : Int, egcdLoop fuel t newt rr newr = some (tf, rf) ∧
      0 < rf ∧ -R < tf ∧ tf < R ∧ R ∣ (tf * a - rf) ∧
      (ntf.natAbs : Int) * rf = R ∧ R ∣ (ntf * a) := by
  intro fuel
  induction fuel with
  | zero => intro t newt rr newr _ _ _ _ _ _ _ _ hfuel; omega
  | succ f ih =>
    intro t newt rr newr hI1 hI2 hI3 hI4 hI5 hI6 hI7 hI8 hfuel
    by_cases hz : newr = 0
    · -- exit: the loop returns (t, rr)
      subst hz
      refine ⟨t, rr, newt, ?_, hI1, ?_, ?_, ?_, ?_, ?_⟩
      · unfold egcdLoop
        rw [if_pos rfl]
      · -- -R < t
        rcases lt_trichotomy rr 1 with h | h | h
        · omega
        · -- rr = 1: |newt| = R, t*a ≡ 1; |t| = R would force R ∣ 1
          have hnt : (newt.natAbs : Int) = R := by rw [← hI6, h]; ring
          by_contra hcon
          push_neg at hcon
          have habs : (t.natAbs : Int) = R := by
            have h0 := Int.natAbs_of_nonneg (le_of_lt (lt_of_lt_of_le (by decide : (0:Int) < R) (le_refl R)))
            rcases le_or_lt 0 t with ht | ht
            · have : (t.natAbs : Int) = t := Int.natAbs_of_nonneg ht
              omega
            · have : (t.natAbs : Int) = -t := Int.ofNat_natAbs_of_nonpos (le_of_lt ht)
              omega
          have hdvd_t : R ∣ t := by
            rcases le_or_lt 0 t with ht | ht
            · have : t = R := by
                have := Int.natAbs_of_nonneg ht
                omega
              exact this ▸ dvd_refl R
            · have : t = -R := by
                have := Int.ofNat_natAbs_of_nonpos (le_of_lt ht)
                omega
              exact this ▸ (dvd_neg.mpr (dvd_refl R))
          have hdvd1 : R ∣ (1 : Int) := by
            have h1 : R ∣ t * a := Dvd.dvd.mul_right hdvd_t a
            have h2 : R ∣ (t * a - rr) := hI7
            have h3 : t * a - (t * a - rr) = rr := by ring
            have h4 := dvd_sub h1 h2
            rw [h3, h] at h4
            exact h4
          have := Int.le_of_dvd (by norm_num) hdvd1
          have := R_ge_two
          omega
        · -- rr ≥ 2: |t|·rr ≤ R forces |t| ≤ R/2 < R
          have hta : (t.natAbs : Int) * rr ≤ R := by
            calc (t.natAbs : Int) * rr ≤ (newt.natAbs : Int) * rr :=
                  mul_le_mul_of_nonneg_right hI5 (le_of_lt hI1)
              _ = R := by rw [← hI6]; ring
          have h0 : (0 : Int) ≤ (t.natAbs : Int) := by positivity
          have h2 : (t.natAbs : Int) * 2 ≤ (t.natAbs : Int) * rr :=
            mul_le_mul_of_nonneg_left (by omega) h0
          have habs : (t.natAbs : Int) < R := by
            have := R_ge_two
            omega
          rcases le_or_lt 0 t with ht | ht
          · have := Int.natAbs_of_nonneg ht
            omega
          · have := Int.ofNat_natAbs_of_nonpos (le_of_lt ht)
            omega
      · -- t < R (same case split, reusing the magnitude bound)
        rcases lt_trichotomy rr 1 with h | h | h
        · omega
        · have hnt : (newt.natAbs : Int) = R := by rw [← hI6, h]; ring
          by_contra hcon
          push_neg at hcon
          have habs : (t.natAbs : Int) = R := by
            rcases le_or_lt 0 t with ht | ht
            · have : (t.natAbs : Int) = t := Int.natAbs_of_nonneg ht
              omega
            · have := R_ge_two
              omega
          have hdvd_t : R ∣ t := by
            have hteq : t = R := by
              have := Int.natAbs_of_nonneg (le_trans (by decide : (0:Int) ≤ 2) (le_trans R_ge_two hcon))
              omega
            exact hteq ▸ dvd_refl R
          have hdvd1 : R ∣ (1 : Int) := by
            have h1 : R ∣ t * a := Dvd.dvd.mul_right hdvd_t a
            have h2 := hI7
            have h3 : t * a - (t * a - rr) = rr := by ring
            have h4 := dvd_sub h1 h2
            rw [h3, h] at h4
            exact h4
          have := Int.le_of_dvd (by norm_num) hdvd1
          have := R_ge_two
          omega
        · have hta : (t.natAbs : Int) * rr ≤ R := by
            calc (t.natAbs : Int) * rr ≤ (newt.natAbs : Int) * rr :=
                  mul_le_mul_of_nonneg_right hI5 (le_of_lt hI1)
              _ = R := by rw [← hI6]; ring
          have h0 : (0 : Int) ≤ (t.natAbs : Int) := by positivity
          have h2 : (t.natAbs : Int) * 2 ≤ (t.natAbs : Int) * rr :=
            mul_le_mul_of_nonneg_left (by omega) h0
          have habs : (t.natAbs : Int) < R := by
            have := R_ge_two
            omega
          rcases le_or_lt 0 t with ht | ht
          · have := Int.natAbs_of_nonneg ht
            omega
          · have := Int.ofNat_natAbs_of_nonpos (le_of_lt ht)
            omega
      · simpa using hI7
      · rw [← hI6]
        push_cast
        ring
      · have := hI8
        simpa using this
    · -- loop body
      have hnewr_pos : 0 < newr := by omega
      have hq1 : 1 ≤ rr.tdiv newr := by
        rw [Int.tdiv_eq_ediv (le_of_lt hI1) (le_of_lt hnewr_pos)]
        rw [Int.le_ediv_iff_mul_le hnewr_pos]
        omega
      set q := rr.tdiv newr with hq
      have hmod_eq : rr - q * newr = rr.tmod newr := by
        rw [Int.tmod_def]
        ring
      have hmod0 : 0 ≤ rr - q * newr := by
        rw [hmod_eq]
        exact Int.tmod_nonneg _ (le_of_lt hI1)
      have hmodlt : rr - q * newr < newr := by
        rw [hmod_eq]
        exact Int.tmod_lt_of_pos _ hnewr_pos
      -- newt is nonzero (else the size invariant collapses)
      have hnewt_ne : newt ≠ 0 := by
        intro hc
        subst hc
        simp only [Int.natAbs_zero, Nat.cast_zero] at hI5 hI6
        have ht0 : (t.natAbs : Int) = 0 := by omega
        rw [ht0] at hI6
        have := R_ge_two
        omega
      -- the new Bezout coefficient flips sign and grows
      have hstep : newt * (t - q * newt) ≤ 0 ∧
          ((t - q * newt).natAbs : Int) = (t.natAbs : Int) + q * (newt.natAbs : Int) := by
        rcases lt_or_gt_of_ne hnewt_ne with hneg | hpos
        · -- newt < 0 hence t ≥ 0
          have ht0 : 0 ≤ t := by nlinarith
          have habs_t : (t.natAbs : Int) = t := Int.natAbs_of_nonneg ht0
          have habs_nt : (newt.natAbs : Int) = -newt :=
            Int.ofNat_natAbs_of_nonpos (le_of_lt hneg)
          have hge : 0 ≤ t - q * newt := by nlinarith
          have habs' : ((t - q * newt).natAbs : Int) = t - q * newt :=
            Int.natAbs_of_nonneg hge
          constructor
          · nlinarith
          · rw [habs', habs_t, habs_nt]
            ring
        · -- newt > 0 hence t ≤ 0
          have ht0 : t ≤ 0 := by nlinarith
          have habs_t : (t.natAbs : Int) = -t := Int.ofNat_natAbs_of_nonpos ht0
          have habs_nt : (newt.natAbs : Int) = newt := Int.natAbs_of_nonneg (le_of_lt hpos)
          have hle : t - q * newt ≤ 0 := by nlinarith
          have habs' : ((t - q * newt).natAbs : Int) = -(t - q * newt) :=
            Int.ofNat_natAbs_of_nonpos hle
          constructor
          · nlinarith
          · rw [habs', habs_t, habs_nt]
            ring
      have hI4' := hstep.1
      have habs' := hstep.2
      have hI5' : (newt.natAbs : Int) ≤ ((t - q * newt).natAbs : Int) := by
        rw [habs']
        have h1 : (0 : Int) ≤ (t.natAbs : Int) := by positivity
        have h2 : (0 : Int) ≤ (newt.natAbs : Int) := by positivity
        nlinarith
      have hI6' : (newt.natAbs : Int) * (rr - q * newr)
          + ((t - q * newt).natAbs : Int) * newr = R := by
        rw [habs']
        linear_combination hI6
      have hI8' : R ∣ ((t - q * newt) * a - (rr - q * newr)) := by
        have h1 := dvd_sub hI7 (Dvd.dvd.mul_left hI8 q)
        have : (t * a - rr) - q * (newt * a - newr)
            = (t - q * newt) * a - (rr - q * newr) := by ring
        rwa [this] at h1
      have hfuel' : (rr - q * newr).natAbs < f := by
        have h1 : (newr.natAbs : Int) = newr := Int.natAbs_of_nonneg (le_of_lt hnewr_pos)
        have h2 : ((rr - q * newr).natAbs : Int) = rr - q * newr :=
          Int.natAbs_of_nonneg hmod0
        omega
      obtain ⟨tf, rf, ntf, heq, hpost⟩ :=
        ih newt (t - q * newt) newr (rr - q * newr) hnewr_pos hmod0 hmodlt
          hI4' hI5' hI6' hI8 hI8' hfuel'
      refine ⟨tf, rf, ntf, ?_, hpost⟩
      unfold egcdLoop
      rw [if_neg hz]
      exact heq

/-- `F1Field.inv` on a canonical nonzero input: the result is canonical, and it is a
Bezout coefficient — `inv(a)·a ≡ g (mod R)` for a positive `g` with `|nt|·g = R` and
`R ∣ nt·a` for some companion coefficient `nt` (so `g = 1` whenever `R` is prime and
`a ≢ 0`). -/
theorem inv_spec {a : Int} (ha : 0 < a) (haR : a < R) :
    canon (Fr.inv a) ∧
    ∃ g nt : Int, 0 < g ∧ R ∣ (Fr.inv a * a - g) ∧ (nt.natAbs : Int) * g = R ∧
      R ∣ (nt * a) := by
  have hn0 : a.tmod Fr.order = a := by
    rw [Fr_order_eq]
    exact Int.tmod_eq_of_lt (le_of_lt ha) haR
  have hR0 : (0 : Int) < Fr.order := by rw [Fr_order_eq]; exact R_pos
  obtain ⟨tf, rf, ntf, heq, hrf, hlo, hhi, hcong, hsz, hnta⟩ :=
    egcdLoop_ind a (a.natAbs + 1) 0 1 Fr.order a hR0 (le_of_lt ha)
      (by rw [Fr_order_eq]; exact haR)
      (by norm_num) (by norm_num)
      (by rw [Fr_order_eq]; norm_num)
      (by rw [Fr_order_eq]; simpa using (dvd_neg.mpr (dvd_refl R)))
      (by simp)
      (by omega)
    
  have hinv : Fr.inv a = if tf < 0 then tf + Fr.order else tf := by
    unfold F1Field.inv
    rw [if_neg (by omega)]
    dsimp only
    rw [hn0, heq]
  rw [hinv, Fr_order_eq]
  refine ⟨?_, rf, ntf, hrf, ?_, hsz, hnta⟩
  · constructor <;> split <;> rw [R_eq_P] at * <;> omega
  · split
    · have h1 : (tf + R) * a - rf = (tf * a - rf) + R * a := by ring
      rw [h1]
      exact dvd_add hcong (Dvd.dvd.mul_right (dvd_refl R) a)
    · exact hcong

/-- `powAux` preserves canonical form for non-negative bases. -/
theorem powAux_canon (base : Int) (hbase : 0 ≤ base) :
    ∀ (l : List Nat) (res : Int), canon res → canon (Fr.powAux base l res) := by
  intro l
  induction l with
  | nil => intro res hres; exact hres
  | cons b rest ih =>
    intro res hres
    unfold F1Field.powAux
    split
    · exact ih _ (canon_mul (canon_square hres.1).1 hbase)
    · exact ih _ (canon_square hres.1)

theorem canon_one : canon (1 : Int) := by constructor <;> decide

/-- C8: on canonical inputs `a, b ∈ [0, R)`, each of `e`, `add`, `sub`, `mul`,
`square`, `neg`, `inv` (nonzero input), `div` (nonzero divisor) and `pow` returns a
canonical value in `[0, R)`. -/
theorem claim_C8 (a b : Int) (ha : canon a) (hb : canon b) :
    canon (Fr.e a) ∧ canon (Fr.add a b) ∧ canon (Fr.sub a b) ∧ canon (Fr.mul a b) ∧
    canon (Fr.square a) ∧ canon (Fr.neg a) ∧
    (a ≠ 0 → canon (Fr.inv a)) ∧ (b ≠ 0 → canon (Fr.div a b)) ∧
    canon (Fr.pow a b) := by
  refine ⟨canon_e, canon_add ha hb, canon_sub ha hb, canon_mul ha.1 hb.1,
    canon_square ha.1, canon_neg ha, ?_, ?_, ?_⟩
  · intro hne
    have ha1 := ha.1
    exact (inv_spec (by omega) ha.2).1
  · intro hne
    have hb1 := hb.1
    have hib := (inv_spec (a := b) (by omega) hb.2).1
    exact canon_mul ha.1 hib.1
  · unfold F1Field.pow
    split
    · exact canon_one
    · have hb1 := hb.1
      have hbneg : ¬ (b < 0) := by omega
      rw [if_neg hbneg]
      dsimp only
      rw [if_neg hbneg]
      split
      · exact canon_one
      · exact powAux_canon a ha.1 _ _ ha

/-- Witness for C8 at `a = 2`, `b = 3`. -/
theorem claim_C8_witness :
    canon (2 : Int) ∧ canon (3 : Int) ∧ canon (Fr.inv 2) ∧ canon (Fr.div 2 3) ∧
    canon (Fr.pow 2 3) := by
  have h := claim_C8 2 3 (by decide) (by decide)
  exact ⟨by decide, by decide, h.2.2.2.2.2.2.1 (by decide),
    h.2.2.2.2.2.2.2.1 (by decide), h.2.2.2.2.2.2.2.2⟩

/-! ## Certified primality of `P` (Lucas chain) -/

theorem powmodAux_eq : ∀ (f : Nat), ∀ e a n : Nat, 0 < n → e < 2 ^ f →
    powmodAux f a e n = a ^ e % n := by
  intro f
  induction f with
  | zero =>
    intro e a n hn he
    interval_cases e
    rfl
  | succ f ih =>
    intro e a n hn he
    by_cases h0 : e = 0
    · subst h0
      rfl
    · have hrec : powmodAux f a (e / 2) n = a ^ (e / 2) % n := by
        refine ih _ a n hn ?_
        have h1 : e < 2 ^ (f + 1) := he
        have h2 : e / 2 < 2 ^ f := by
          rw [Nat.div_lt_iff_lt_mul (by norm_num)]
          calc e < 2 ^ (f + 1) := h1
            _ = 2 ^ f * 2 := by ring
        exact h2
      have hsplit : e = e / 2 + e / 2 + e % 2 := by omega
      show (if e = 0 then 1 % n else _) = _
      rw [if_neg h0]
      dsimp only
      rw [hrec]
      by_cases hpar : e % 2 = 1
      · rw [if_pos hpar]
        conv_rhs => rw [hsplit, hpar]
        rw [pow_add, pow_add, pow_one]
        rw [← Nat.mul_mod, Nat.mod_mul_mod]
      · rw [if_neg hpar]
        have hpar0 : e % 2 = 0 := by omega
        conv_rhs => rw [hsplit, hpar0]
        rw [pow_add, pow_add, pow_zero, mul_one]
        rw [← Nat.mul_mod]

theorem powmodAux_lt : ∀ (f a e n : Nat), 0 < n → powmodAux f a e n < n := by
  intro f
  induction f with
  | zero => intro a e n hn; exact Nat.mod_lt _ hn
  | succ f ih =>
    intro a e n hn
    show (if e = 0 then 1 % n else _) < n
    split
    · exact Nat.mod_lt _ hn
    · dsimp only
      split
      · exact Nat.mod_lt _ hn
      · exact Nat.mod_lt _ hn

theorem zmod_powmod (p : Nat) (hp : 0 < p) (a e : Nat) (he : e < 2 ^ 300) :
    ((powmod a e p : Nat) : ZMod p) = (a : ZMod p) ^ e := by
  rw [powmod, powmodAux_eq _ _ _ _ hp he, ZMod.natCast_mod, Nat.cast_pow]

theorem zmod_pow_eq_one {p a e : Nat} (hp : 1 < p) (he : e < 2 ^ 300)
    (h : powmod a e p = 1) : (a : ZMod p) ^ e = 1 := by
  rw [← zmod_powmod p (by omega) a e he, h, Nat.cast_one]

theorem zmod_pow_ne_one {p a e : Nat} (hp : 1 < p) (he : e < 2 ^ 300)
    (h : powmod a e p ≠ 1) : (a : ZMod p) ^ e ≠ 1 := by
  intro hc
  apply h
  haveI : Fact (1 < p) := ⟨hp⟩
  have h1 : ((powmod a e p : Nat) : ZMod p) = 1 := by
    rw [zmod_powmod p (by omega) a e he]
    exact hc
  have h2 : powmod a e p < p := powmodAux_lt _ _ _ _ (by omega)
  have h3 := ZMod.val_cast_of_lt h2
  rw [h1, ZMod.val_one p] at h3
  exact h3.symm

/-- Lucas's primality criterion, phrased over `powmod` so that each condition is a
kernel computation. -/
theorem lucas_helper (p a : Nat) (hp : 1 < p) (hsize : p - 1 < 2 ^ 300)
    (h1 : powmod a (p - 1) p = 1)
    (hq : ∀ q : Nat, q.Prime → q ∣ (p - 1) → powmod a ((p - 1) / q) p ≠ 1) :
    Nat.Prime p := by
  refine lucas_primality p (a : ZMod p) (zmod_pow_eq_one hp hsize h1) ?_
  intro q hq' hdvd
  exact zmod_pow_ne_one hp (lt_of_le_of_lt (Nat.div_le_self _ _) hsize) (hq q hq' hdvd)

theorem prime_eq_of_dvd_prime_pow {q pp k : Nat} (hq : q.Prime) (hp : pp.Prime)
    (h : q ∣ pp ^ k) : q = pp :=
  (Nat.prime_dvd_prime_iff_eq hq hp).mp (hq.dvd_of_dvd_pow h)

theorem prime_1593227 : Nat.Prime 1593227 := by norm_num

theorem prime_639533339 : Nat.Prime 639533339 := by
  refine lucas_helper _ 2 (by norm_num) (by decide!) (by decide!) ?_
  intro q hq hdvd
  have hfac : (639533339 - 1 : Nat) = 2 * (229 * (853 * 1637)) := by norm_num
  rw [hfac] at hdvd
  rcases (Nat.Prime.dvd_mul hq).mp hdvd with h | h
  · rw [(Nat.prime_dvd_prime_iff_eq hq (by norm_num)).mp h]
    decide!
  rcases (Nat.Prime.dvd_mul hq).mp h with h | h
  · rw [(Nat.prime_dvd_prime_iff_eq hq (by norm_num)).mp h]
    decide!
  rcases (Nat.Prime.dvd_mul hq).mp h with h | h
  · rw [(Nat.prime_dvd_prime_iff_eq hq (by norm_num)).mp h]
    decide!
  · rw [(Nat.prime_dvd_prime_iff_eq hq (by norm_num)).mp h]
    decide!

theorem prime_65865678001877903 : Nat.Prime 65865678001877903 := by
  refine lucas_helper _ 5 (by norm_num) (by decide!) (by decide!) ?_
  intro q hq hdvd
  have hfac : (65865678001877903 - 1 : Nat)
      = 2 * (83 * (379 * (1637 * 639533339))) := by norm_num
  rw [hfac] at hdvd
  rcases (Nat.Prime.dvd_mul hq).mp hdvd with h | h
  · rw [(Nat.prime_dvd_prime_iff_eq hq (by norm_num)).mp h]
    decide!
  rcases (Nat.Prime.dvd_mul hq).mp h with h | h
  · rw [(Nat.prime_dvd_prime_iff_eq hq (by norm_num)).mp h]
    decide!
  rcases (Nat.Prime.dvd_mul hq).mp h with h | h
  · rw [(Nat.prime_dvd_prime_iff_eq hq (by norm_num)).mp h]
    decide!
  rcases (Nat.Prime.dvd_mul hq).mp h with h | h
  · rw [(Nat.prime_dvd_prime_iff_eq hq (by norm_num)).mp h]
    decide!
  · rw [(Nat.prime_dvd_prime_iff_eq hq prime_639533339).mp h]
    decide!

theorem prime_12048837557 : Nat.Prime 12048837557 := by
  refine lucas_helper _ 2 (by norm_num) (by decide!) (by decide!) ?_
  intro q hq hdvd
  have hfac : (12048837557 - 1 : Nat) = 2 ^ 2 * (7 ^ 2 * (661 * 93001)) := by norm_num
  rw [hfac] at hdvd
  rcases (Nat.Prime.dvd_mul hq).mp hdvd with h | h
  · rw [prime_eq_of_dvd_prime_pow hq (by norm_num) h]
    decide!
  rcases (Nat.Prime.dvd_mul hq).mp h with h | h
  · rw [prime_eq_of_dvd_prime_pow hq (by norm_num) h]
    decide!
  rcases (Nat.Prime.dvd_mul hq).mp h with h | h
  · rw [(Nat.prime_dvd_prime_iff_eq hq (by norm_num)).mp h]
    decide!
  · rw [(Nat.prime_dvd_prime_iff_eq hq (by norm_num)).mp h]
    decide!

theorem prime_5156902474397 : Nat.Prime 5156902474397 := by
  refine lucas_helper _ 2 (by norm_num) (by decide!) (by decide!) ?_
  intro q hq hdvd
  have hfac : (5156902474397 - 1 : Nat) = 2 ^ 2 * (107 * 12048837557) := by norm_num
  rw [hfac] at hdvd
  rcases (Nat.Prime.dvd_mul hq).mp hdvd with h | h
  · rw [prime_eq_of_dvd_prime_pow hq (by norm_num) h]
    decide!
  rcases (Nat.Prime.dvd_mul hq).mp h with h | h
  · rw [(Nat.prime_dvd_prime_iff_eq hq (by norm_num)).mp h]
    decide!
  · rw [(Nat.prime_dvd_prime_iff_eq hq prime_12048837557).mp h]
    decide!

theorem prime_1670836401704629 : Nat.Prime 1670836401704629 := by
  refine lucas_helper _ 2 (by norm_num) (by decide!) (by decide!) ?_
  intro q hq hdvd
  have hfac : (1670836401704629 - 1 : Nat) = 2 ^ 2 * (3 ^ 4 * 5156902474397) := by
    norm_num
  rw [hfac] at hdvd
  rcases (Nat.Prime.dvd_mul hq).mp hdvd with h | h
  · rw [prime_eq_of_dvd_prime_pow hq (by norm_num) h]
    decide!
  rcases (Nat.Prime.dvd_mul hq).mp h with h | h
  · rw [prime_eq_of_dvd_prime_pow hq (by norm_num) h]
    decide!
  · rw [(Nat.prime_dvd_prime_iff_eq hq prime_5156902474397).mp h]
    decide!

theorem prime_405928799 : Nat.Prime 405928799 := by
  refine lucas_helper _ 22 (by norm_num) (by decide!) (by decide!) ?_
  intro q hq hdvd
  have hfac : (405928799 - 1 : Nat) = 2 * (11 * (3691 * 4999)) := by norm_num
  rw [hfac] at hdvd
  rcases (Nat.Prime.dvd_mul hq).mp hdvd with h | h
  · rw [(Nat.prime_dvd_prime_iff_eq hq (by norm_num)).mp h]
    decide!
  rcases (Nat.Prime.dvd_mul hq).mp h with h | h
  · rw [(Nat.prime_dvd_prime_iff_eq hq (by norm_num)).mp h]
    decide!
  rcases (Nat.Prime.dvd_mul hq).mp h with h | h
  · rw [(Nat.prime_dvd_prime_iff_eq hq (by norm_num)).mp h]
    decide!
  · rw [(Nat.prime_dvd_prime_iff_eq hq (by norm_num)).mp h]
    decide!

theorem prime_13818364434197438864469338081 : Nat.Prime 13818364434197438864469338081 := by
  refine lucas_helper _ 3 (by norm_num) (by decide!) (by decide!) ?_
  intro q hq hdvd
  have hfac : (13818364434197438864469338081 - 1 : Nat)
      = 2 ^ 5 * (5 * (823 * (1593227 * 65865678001877903))) := by norm_num
  rw [hfac] at hdvd
  rcases (Nat.Prime.dvd_mul hq).mp hdvd with h | h
  · rw [prime_eq_of_dvd_prime_pow hq (by norm_num) h]
    decide!
  rcases (Nat.Prime.dvd_mul hq).mp h with h | h
  · rw [(Nat.prime_dvd_prime_iff_eq hq (by norm_num)).mp h]
    decide!
  rcases (Nat.Prime.dvd_mul hq).mp h with h | h
  · rw [(Nat.prime_dvd_prime_iff_eq hq (by norm_num)).mp h]
    decide!
  rcases (Nat.Prime.dvd_mul hq).mp h with h | h
  · rw [(Nat.prime_dvd_prime_iff_eq hq prime_1593227).mp h]
    decide!
  · rw [(Nat.prime_dvd_prime_iff_eq hq prime_65865678001877903).mp h]
    decide!

/-- The BN254 scalar-field modulus `P` is prime (Lucas certificate with witness 5). -/
theorem P_prime : Nat.Prime P := by
  refine lucas_helper _ 5 (by decide!) (by decide!) (by decide!) ?_
  intro q hq hdvd
  have hfac : (P - 1 : Nat)
      = 2 ^ 28 * (3 ^ 2 * (13 * (29 * (983 * (11003 * (237073 * (405928799 *
          (1670836401704629 * 13818364434197438864469338081)))))))) := by decide!
  rw [hfac] at hdvd
  rcases (Nat.Prime.dvd_mul hq).mp hdvd with h | h
  · rw [prime_eq_of_dvd_prime_pow hq (by norm_num) h]
    decide!
  rcases (Nat.Prime.dvd_mul hq).mp h with h | h
  · rw [prime_eq_of_dvd_prime_pow hq (by norm_num) h]
    decide!
  rcases (Nat.Prime.dvd_mul hq).mp h with h | h
  · rw [(Nat.prime_dvd_prime_iff_eq hq (by norm_num)).mp h]
    decide!
  rcases (Nat.Prime.dvd_mul hq).mp h with h | h
  · rw [(Nat.prime_dvd_prime_iff_eq hq (by norm_num)).mp h]
    decide!
  rcases (Nat.Prime.dvd_mul hq).mp h with h | h
  · rw [(Nat.prime_dvd_prime_iff_eq hq (by norm_num)).mp h]
    decide!
  rcases (Nat.Prime.dvd_mul hq).mp h with h | h
  · rw [(Nat.prime_dvd_prime_iff_eq hq (by norm_num)).mp h]
    decide!
  rcases (Nat.Prime.dvd_mul hq).mp h with h | h
  · rw [(Nat.prime_dvd_prime_iff_eq hq (by norm_num)).mp h]
    decide!
  rcases (Nat.Prime.dvd_mul hq).mp h with h | h
  · rw [(Nat.prime_dvd_prime_iff_eq hq prime_405928799).mp h]
    decide!
  rcases (Nat.Prime.dvd_mul hq).mp h with h | h
  · rw [(Nat.prime_dvd_prime_iff_eq hq prime_1670836401704629).mp h]
    decide!
  · rw [(Nat.prime_dvd_prime_iff_eq hq prime_13818364434197438864469338081).mp h]
    decide!

/-! ## Semantics of `F1Field.pow` (square-and-multiply) -/

theorem bitsAux_zero (f : Nat) : scalar.bitsAux f 0 = [] := by
  cases f <;> rfl

theorem bitsAux_succ (f m : Nat) (hm : m ≠ 0) :
    scalar.bitsAux (f + 1) m = m % 2 :: scalar.bitsAux f (m / 2) := by
  match m with
  | w + 1 => rfl

theorem bitsAux_fuel : ∀ (f : Nat), ∀ (g m : Nat), m ≤ f → m ≤ g →
    scalar.bitsAux f m = scalar.bitsAux g m := by
  intro f
  induction f with
  | zero =>
    intro g m hf _
    have : m = 0 := by omega
    subst this
    rw [bitsAux_zero, bitsAux_zero]
  | succ f ih =>
    intro g m hf hg
    rcases Nat.eq_zero_or_pos m with h0 | h0
    · subst h0
      rw [bitsAux_zero, bitsAux_zero]
    · match g with
      | 0 => omega
      | g + 1 =>
        rw [bitsAux_succ f m (by omega), bitsAux_succ g m (by omega)]
        have hdiv : m / 2 < m := Nat.div_lt_self h0 (by norm_num)
        rw [ih g (m / 2) (by omega) (by omega)]

theorem bits_cons (m : Nat) (hm : 0 < m) :
    scalar.bitsAux (m + 1) m = m % 2 :: scalar.bitsAux (m / 2 + 1) (m / 2) := by
  rw [bitsAux_succ m m (by omega)]
  have hdiv : m / 2 < m := Nat.div_lt_self hm (by norm_num)
  rw [bitsAux_fuel m (m / 2 + 1) (m / 2) (by omega) (by omega)]

theorem bitsAux_ne_nil (m : Nat) (hm : 0 < m) : scalar.bitsAux (m + 1) m ≠ [] := by
  rw [bitsAux_succ m m (by omega)]
  simp

theorem powAux_append (base : Int) (b : Nat) :
    ∀ (l : List Nat) (res : Int),
      Fr.powAux base (l ++ [b]) res
      = (if b = 1 then Fr.mul (Fr.square (Fr.powAux base l res)) base
         else Fr.square (Fr.powAux base l res)) := by
  intro l
  induction l with
  | nil => intro res; rfl
  | cons c rest ih =>
    intro res
    show Fr.powAux base (rest ++ [b]) _ = _
    rw [ih]
    rfl

/-- Core semantics of the MSB-first square-and-multiply loop: starting from the
accumulator `base` and processing the lower bits of `m`, it computes `base ^ m`. -/
theorem powAux_sem (base : Int) : ∀ (m : Nat), 0 < m →
    ((Fr.powAux base ((scalar.bitsAux (m + 1) m).dropLast.reverse) base : Int) : ZMod P)
    = ((base : Int) : ZMod P) ^ m := by
  intro m
  induction m using Nat.strong_induction_on with
  | _ m ih =>
    intro hm
    rcases Nat.lt_or_ge m 2 with h2 | h2
    · -- m = 1
      have h1 : m = 1 := by omega
      subst h1
      rw [show scalar.bitsAux 2 1 = [1] from rfl]
      show ((Fr.powAux base [] base : Int) : ZMod P) = _
      rw [pow_one]
      rfl
    · -- m ≥ 2
      have hd2 : 0 < m / 2 := by omega
      rw [bits_cons m hm]
      have hne : scalar.bitsAux (m / 2 + 1) (m / 2) ≠ [] := bitsAux_ne_nil _ hd2
      rw [List.dropLast_cons_of_ne_nil hne, List.reverse_cons, powAux_append]
      have hrec := ih (m / 2) (by omega) hd2
      split
    

      · rw [cast_mul, cast_square, hrec]
        conv_rhs => rw [show m = m / 2 + m / 2 + 1 from by omega]
        rw [pow_add, pow_add, pow_one]
      · rw [cast_square, hrec]
        conv_rhs => rw [show m = m / 2 + m / 2 from by omega]
        rw [pow_add]

/-- `F1Field.pow` on a canonical base and a positive exponent: canonical output whose
class in `ZMod P` is `base ^ e`. -/
theorem pow_sem {base : Int} (hbase : canon base) {e : Int} (he : 0 < e) :
    canon (Fr.pow base e) ∧
    ((Fr.pow base e : Int) : ZMod P) = ((base : Int) : ZMod P) ^ e.toNat := by
  have hne : ¬ (e = 0) := by omega
  have hneg : ¬ (e < 0) := by omega
  have htn : 0 < e.toNat := by omega
  have hlist : scalar.bits e = scalar.bitsAux (e.toNat + 1) e.toNat := rfl
  have hnil : scalar.bits e ≠ [] := by
    rw [hlist]
    exact bitsAux_ne_nil _ htn
  constructor
  · unfold F1Field.pow
    rw [if_neg hne]
    dsimp only
    rw [if_neg hneg, if_neg hneg, if_neg hnil]
    exact powAux_canon base hbase.1 _ _ hbase
  · unfold F1Field.pow
    rw [if_neg hne]
    dsimp only
    rw [if_neg hneg, if_neg hneg, if_neg hnil, hlist]
    exact powAux_sem base e.toNat htn

/-! ## Field consequences of the primality of `P` -/

theorem canon_zero : canon (0 : Int) := by constructor <;> decide

theorem zmod_sq_eq {x y : ZMod P} (h : x * x = y * y) : x = y ∨ x = -y := by
  haveI : Fact (Nat.Prime P) := ⟨P_prime⟩
  have h0 : (x - y) * (x + y) = 0 := by linear_combination h
  rcases mul_eq_zero.mp h0 with h1 | h1
  · left
    exact sub_eq_zero.mp h1
  · right
    exact eq_neg_of_add_eq_zero_left h1

theorem zmod_sq_one {x : ZMod P} (h : x * x = 1) : x = 1 ∨ x = -1 := by
  have : x * x = 1 * 1 := by rw [h]; ring
  exact zmod_sq_eq this

theorem canon_cast_ne_zero {a : Int} (ha : canon a) (hne : a ≠ 0) :
    ((a : Int) : ZMod P) ≠ 0 := by
  intro hc
  exact hne (canon_inj ha canon_zero (by rw [hc]; norm_num))

theorem canon_cast_eq_one {a : Int} (ha : canon a) (hc : ((a : Int) : ZMod P) = 1) :
    a = 1 := canon_inj ha canon_one (by rw [hc]; norm_num)

/-! ## The Tonelli-Shanks loops -/

theorem iterSquare_sem (m : Nat) : ∀ z : Int, canon z →
    canon (iterSquare Fr m z) ∧
    ((iterSquare Fr m z : Int) : ZMod P) = ((z : Int) : ZMod P) ^ (2 ^ m) := by
  induction m with
  | zero =>
    intro z hz
    refine ⟨hz, ?_⟩
    rw [show iterSquare Fr 0 z = z from rfl]
    norm_num
  | succ m ih =>
    intro z hz
    have hunf : iterSquare Fr (m + 1) z = iterSquare Fr m (Fr.square z) := rfl
    rw [hunf]
    obtain ⟨hc, hv⟩ := ih (Fr.square z) (canon_square hz.1)
    refine ⟨hc, ?_⟩
    rw [hv, cast_square]
    rw [show ((z : Int) : ZMod P) * (z : ZMod P) = ((z : Int) : ZMod P) ^ 2 from (pow_two _).symm]
    rw [← pow_mul]
    congr 1
    rw [pow_succ]
    ring

/-- The inner `k`-search: starting at index `k` with accumulator `c ≡ b^(2^k)` and
knowing `b^(2^(k-1)) ≠ 1` and `b^(2^(v-1)) = 1`, it finds the least index at which the
power hits 1. -/
theorem tsInner_go {b : Int} {v : Nat}
    (hbv : ((b : Int) : ZMod P) ^ (2 ^ (v - 1)) = 1) :
    ∀ (fuel k : Nat) (c : Int), canon c → 1 ≤ k → k ≤ v - 1 →
      ((c : Int) : ZMod P) = ((b : Int) : ZMod P) ^ (2 ^ k) →
      ((b : Int) : ZMod P) ^ (2 ^ (k - 1)) ≠ 1 →
      v - k ≤ fuel →
      ∃ kf, tsInner Fr fuel c k = some kf ∧ 1 ≤ kf ∧ kf ≤ v - 1 ∧
        ((b : Int) : ZMod P) ^ (2 ^ kf) = 1 ∧
        ((b : Int) : ZMod P) ^ (2 ^ (kf - 1)) ≠ 1 := by
  intro fuel
  induction fuel with
  | zero => intro k c _ _ hk2 _ _ hfuel; omega
  | succ f ih =>
    intro k c hc hk1 hk2 hcval hbprev hfuel
    by_cases hce : c = 1
    · refine ⟨k, ?_, hk1, hk2, ?_, hbprev⟩
      · show (if Fr.eq c Fr.one = true then some k else _) = some k
        rw [if_pos (by simp [F1Field.eq, F1Field.one, hce])]
      · have hc1 : ((c : Int) : ZMod P) = 1 := by rw [hce]; norm_num
        rw [hc1] at hcval
        exact hcval.symm
    · have hcne : Fr.eq c Fr.one = false := by simp [F1Field.eq, F1Field.one, hce]
      have hcZ : ((c : Int) : ZMod P) ≠ 1 := fun hcon => hce (canon_cast_eq_one hc hcon)
      have hklt : k < v - 1 := by
        rcases Nat.lt_or_ge k (v - 1) with h | h
        · exact h
        · exfalso
          have hkeq : k = v - 1 := by omega
          apply hcZ
          rw [hcval, hkeq, hbv]
      obtain ⟨kf, heq, h1, h2, h3, h4⟩ := ih (k + 1) (Fr.square c)
        (canon_square hc.1) (by omega) (by omega)
        (by
          rw [cast_square, hcval, ← pow_add]
          congr 1
          rw [pow_succ]
          ring)
        (by
          rw [show k + 1 - 1 = k from rfl, ← hcval]
          exact hcZ)
        (by omega)
      refine ⟨kf, ?_, h1, h2, h3, h4⟩
      show (if Fr.eq c Fr.one = true then some k else tsInner Fr f (Fr.square c) (k + 1))
        = some kf
      rw [hcne]
      simpa using heq

theorem tsLoop_succ (f : Nat) (x b z : Int) (v : Nat) :
    tsLoop Fr (f + 1) x b z v =
      if Fr.eq b Fr.one then some x
      else
        match tsInner Fr v (Fr.square b) 1 with
        | none => none
        | some k =>
          let w := iterSquare Fr (v - k - 1) z
          let z' := Fr.square w
          let b' := Fr.mul b z'
          let x' := Fr.mul x w
          tsLoop Fr f x' b' z' k := rfl

/-- Invariant-carrying induction over the outer Tonelli-Shanks loop: `x² = n·b`,
`b^(2^(v-1)) = 1` and `z^(2^(v-1)) = -1` are preserved while `v` strictly decreases,
and at exit `x` is a square root of `n`. -/
theorem tsLoop_spec (nZ : ZMod P) : ∀ (fuel : Nat) (x b z : Int) (v : Nat),
    canon x → canon b → canon z →
    1 ≤ v → v < fuel →
    ((x : Int) : ZMod P) * (x : ZMod P) = nZ * ((b : Int) : ZMod P) →
    ((b : Int) : ZMod P) ^ (2 ^ (v - 1)) = 1 →
    ((z : Int) : ZMod P) ^ (2 ^ (v - 1)) = -1 →
    ∃ xf : Int, tsLoop Fr fuel x b z v = some xf ∧ canon xf ∧
      ((xf : Int) : ZMod P) * (xf : ZMod P) = nZ := by
  intro fuel
  induction fuel with
  | zero => intro x b z v _ _ _ hv hfuel; omega
  | succ f ih =>
    intro x b z v hx hb hz hv1 hvf hxx hbb hzz
    rw [tsLoop_succ]
    by_cases hbeq : b = 1
    · refine ⟨x, ?_, hx, ?_⟩
      · rw [if_pos (by simp [F1Field.eq, F1Field.one, hbeq])]
      · rw [hxx, show ((b : Int) : ZMod P) = 1 from by rw [hbeq]; norm_num]
        ring
    · have hbne : Fr.eq b Fr.one = false := by simp [F1Field.eq, F1Field.one, hbeq]
      have hbZ : ((b : Int) : ZMod P) ≠ 1 := fun hcon => hbeq (canon_cast_eq_one hb hcon)
      have hv2 : 2 ≤ v := by
        rcases Nat.lt_or_ge v 2 with h | h
        · exfalso
          have hbb' := hbb
          rw [show v - 1 = 0 from by omega, pow_zero, pow_one] at hbb'
          exact hbZ hbb'
        · exact h
      obtain ⟨kf, hinner, hk1, hk2, hbkf, hbkf1⟩ := tsInner_go hbb v 1 (Fr.square b)
        (canon_square hb.1) (le_refl 1) (by omega)
        (by
          rw [cast_square]
          rw [show (2 : Nat) ^ 1 = 2 from rfl, pow_two])
        (by
          rw [show (1 : Nat) - 1 = 0 from rfl, pow_zero, pow_one]
          exact hbZ)
        (by omega)
      have hbhalf : ((b : Int) : ZMod P) ^ (2 ^ (kf - 1)) = -1 := by
        have hsq : ((b : Int) : ZMod P) ^ (2 ^ (kf - 1))
            * ((b : Int) : ZMod P) ^ (2 ^ (kf - 1)) = 1 := by
          rw [← pow_add]
          have h5 : kf = (kf - 1) + 1 := by omega
          rw [show 2 ^ (kf - 1) + 2 ^ (kf - 1) = 2 ^ kf from by
            calc 2 ^ (kf - 1) + 2 ^ (kf - 1) = 2 ^ ((kf - 1) + 1) := by rw [pow_succ]; ring
              _ = 2 ^ kf := by rw [← h5]]
          exact hbkf
        rcases zmod_sq_one hsq with h | h
        · exact absurd h hbkf1
        · exact h
      obtain ⟨hwc, hwv⟩ := iterSquare_sem (v - kf - 1) z hz
      have hzsq : ((Fr.square (iterSquare Fr (v - kf - 1) z) : Int) : ZMod P)
          = ((z : Int) : ZMod P) ^ (2 ^ (v - kf)) := by
        rw [cast_square, hwv, ← pow_add]
        congr 1
        have h6 : v - kf = (v - kf - 1) + 1 := by omega
        calc 2 ^ (v - kf - 1) + 2 ^ (v - kf - 1) = 2 ^ ((v - kf - 1) + 1) := by
              rw [pow_succ]
              ring
          _ = 2 ^ (v - kf) := by rw [← h6]
      have hzk : ((Fr.square (iterSquare Fr (v - kf - 1) z) : Int) : ZMod P) ^ (2 ^ (kf - 1))
          = -1 := by
        rw [hzsq, ← pow_mul]
        rw [show 2 ^ (v - kf) * 2 ^ (kf - 1) = 2 ^ (v - 1) from by
          rw [← pow_add]
          congr 1
          omega]
        exact hzz
      have hbk : ((Fr.mul b (Fr.square (iterSquare Fr (v - kf - 1) z)) : Int) : ZMod P)
          ^ (2 ^ (kf - 1)) = 1 := by
        rw [cast_mul, mul_pow, hbhalf, hzk]
        ring
      have hxk : ((Fr.mul x (iterSquare Fr (v - kf - 1) z) : Int) : ZMod P)
          * ((Fr.mul x (iterSquare Fr (v - kf - 1) z) : Int) : ZMod P)
          = nZ * ((Fr.mul b (Fr.square (iterSquare Fr (v - kf - 1) z)) : Int) : ZMod P) := by
        rw [cast_mul, cast_mul, cast_square]
        linear_combination
          (((iterSquare Fr (v - kf - 1) z : Int) : ZMod P)
            * ((iterSquare Fr (v - kf - 1) z : Int) : ZMod P)) * hxx
      obtain ⟨xf, hrec, hxfc, hxfv⟩ := ih (Fr.mul x (iterSquare Fr (v - kf - 1) z))
        (Fr.mul b (Fr.square (iterSquare Fr (v - kf - 1) z)))
        (Fr.square (iterSquare Fr (v - kf - 1) z)) kf
        (canon_mul hx.1 hwc.1) (canon_mul hb.1 (canon_square hwc.1).1)
        (canon_square hwc.1) hk1 (by omega) hxk hbk hzk
      refine ⟨xf, ?_, hxfc, hxfv⟩
      rw [hbne]
      simp only [Bool.false_eq_true, if_false]
      rw [hinner]
      exact hrec

/-! ## `tonelli_shanks`: full functional correctness on quadratic residues -/

/-- Unfolding of `tonelli_shanks` at the order `R`, with the `let`-bound constants
substituted. -/
theorem tonelli_unfold (n : Int) : tonelli_shanks n R =
    if Fr.is_zero n then some Fr.zero
    else
      if Fr.eq (Fr.pow (Fr.mul (Fr.square (Fr.pow n
            40770029410420498293352137776570907027550720424234931066070132305055)) n)
          (2 ^ 27)) Fr.negone then none
      else
        (tsLoop Fr 29
            (Fr.mul n (Fr.pow n
              40770029410420498293352137776570907027550720424234931066070132305055))
            (Fr.mul (Fr.mul n (Fr.pow n
                40770029410420498293352137776570907027550720424234931066070132305055))
              (Fr.pow n
                40770029410420498293352137776570907027550720424234931066070132305055))
            5978345932401256595026418116861078668372907927053715034645334559810731495452
            28).map
          (fun x => if Fr.geq x Fr.zero then x else Fr.neg x) := rfl

theorem half_nonneg : (0 : Int) ≤ Fr.half := by decide!

theorem R_half : R = 2 * Fr.half + 1 := by decide!

/-- On canonical values, the signed comparison `geq x 0` holds exactly on the lower
half `[0, half]` of the range. -/
theorem geq_zero_iff {x : Int} (hx : canon x) : Fr.geq x Fr.zero = true ↔ x ≤ Fr.half := by
  have hh0 : (0 : Int) ≤ Fr.half := half_nonneg
  have hhR : R = 2 * Fr.half + 1 := R_half
  have hx1 := hx.1
  have hx2 := hx.2
  have hfro : Fr.order = R := Fr_order_eq
  unfold F1Field.geq F1Field.zero
  dsimp only
  rw [if_neg (by omega : ¬ Fr.half < (0 : Int))]
  by_cases hc : Fr.half < x
  · rw [if_pos hc]
    simp only [decide_eq_true_eq]
    rw [hfro]
    omega
  · rw [if_neg hc]
    simp only [decide_eq_true_eq]
    omega

/-- On canonical values, the signed comparison `lt x 0` holds exactly on the upper
half `(half, R)` of the range. -/
theorem lt_zero_iff {x : Int} (hx : canon x) : Fr.lt x Fr.zero = true ↔ Fr.half < x := by
  have hh0 : (0 : Int) ≤ Fr.half := half_nonneg
  have hhR : R = 2 * Fr.half + 1 := R_half
  have hx1 := hx.1
  have hx2 := hx.2
  have hfro : Fr.order = R := Fr_order_eq
  unfold F1Field.lt F1Field.zero
  dsimp only
  rw [if_neg (by omega : ¬ Fr.half < (0 : Int))]
  by_cases hc : Fr.half < x
  · rw [if_pos hc]
    simp only [decide_eq_true_eq]
    rw [hfro]
    omega
  · rw [if_neg hc]
    simp only [decide_eq_true_eq]
    omega

/-- `F1Field.div` on canonical inputs with a nonzero divisor: the result is canonical
and multiplies back to the numerator (this is where the primality of `R` forces the
Bezout gcd of `inv` to be `1`). -/
theorem div_sem {a b : Int} (ha : canon a) (hb : canon b) (hbne : b ≠ 0) :
    canon (Fr.div a b) ∧
    ((Fr.div a b : Int) : ZMod P) * ((b : Int) : ZMod P) = ((a : Int) : ZMod P) := by
  haveI : Fact (Nat.Prime P) := ⟨P_prime⟩
  have hb0 : 0 < b := by
    have := hb.1
    omega
  obtain ⟨hic, g, nt, hg, hcong, hsz, hnta⟩ := inv_spec hb0 hb.2
  have hbZ : ((b : Int) : ZMod P) ≠ 0 := canon_cast_ne_zero hb hbne
  have hntb : ((nt * b : Int) : ZMod P) = 0 := by
    rw [ZMod.intCast_zmod_eq_zero_iff_dvd]
    rw [R_eq_P] at hnta
    exact hnta
  have hntZ : ((nt : Int) : ZMod P) = 0 := by
    rw [Int.cast_mul] at hntb
    rcases mul_eq_zero.mp hntb with h | h
    · exact h
    · exact absurd h hbZ
  have hntdvd : R ∣ nt := by
    rw [R_eq_P]
    exact (ZMod.intCast_zmod_eq_zero_iff_dvd nt P).mp hntZ
  have hntne : nt ≠ 0 := by
    intro h
    rw [h] at hsz
    simp at hsz
    exact absurd hsz.symm (by decide : R ≠ 0)
  have hglattice : (nt.natAbs : Int) * g = R := hsz
  have hnatlb : R ≤ (nt.natAbs : Int) := by
    have hdvd2 : R ∣ (nt.natAbs : Int) := by
      rcases Int.natAbs_eq nt with h | h
      · rw [← h]
        exact hntdvd
      · rw [h] at hntdvd
        exact (dvd_neg.mp hntdvd)
    have hpos : (0 : Int) < (nt.natAbs : Int) := by
      have := Int.natAbs_pos.mpr hntne
      exact_mod_cast this
    exact Int.le_of_dvd hpos hdvd2
  have hnatub : (nt.natAbs : Int) ≤ R := by
    have h1 : (nt.natAbs : Int) * 1 ≤ (nt.natAbs : Int) * g := by
      apply mul_le_mul_of_nonneg_left (by omega) (by positivity)
    rw [mul_one] at h1
    omega
  have hg1 : g = 1 := by
    have heq : (nt.natAbs : Int) = R := le_antisymm hnatub hnatlb
    rw [heq] at hglattice
    have hR0 : R ≠ 0 := by decide
    exact mul_left_cancel₀ hR0 (hglattice.trans (mul_one R).symm)
  rw [hg1] at hcong
  have hinvb : ((Fr.inv b : Int) : ZMod P) * ((b : Int) : ZMod P) = 1 := by
    have hcast : ((Fr.inv b * b - 1 : Int) : ZMod P) = 0 := by
      rw [ZMod.intCast_zmod_eq_zero_iff_dvd]
      rw [R_eq_P] at hcong
      exact hcong
    push_cast at hcast
    linear_combination hcast
  constructor
  · exact canon_mul ha.1 hic.1
  · have hdiv : Fr.div a b = Fr.mul a (Fr.inv b) := rfl
    rw [hdiv, cast_mul, mul_assoc, hinvb, mul_one]

/-- A canonical square root bounded by `half` is uniquely determined: it agrees with
a given canonical root `x` below `half`, and with `R - x` above. -/
theorem root_unique {x z : Int} (hx : canon x) (hz : canon z) (hzh : z ≤ Fr.half)
    (hsq : ((z : Int) : ZMod P) * ((z : Int) : ZMod P)
         = ((x : Int) : ZMod P) * ((x : Int) : ZMod P)) :
    (x ≤ Fr.half → z = x) ∧ (Fr.half < x → z = R - x) := by
  have hhR : R = 2 * Fr.half + 1 := R_half
  have hh0 : (0 : Int) ≤ Fr.half := half_nonneg
  have hx1 := hx.1
  have hx2 := hx.2
  rcases zmod_sq_eq hsq with h | h
  · have hzx : z = x := canon_inj hz hx h
    refine ⟨fun _ => hzx, fun hlt => ?_⟩
    exfalso
    rw [hzx] at hzh
    omega
  · by_cases hx0 : x = 0
    · have hzx : z = x := by
        subst hx0
        apply canon_inj hz canon_zero
        rw [h]
        norm_num
      refine ⟨fun _ => hzx, fun hlt => ?_⟩
      exfalso
      omega
    · have hRx : canon (R - x) := by
        constructor <;> omega
      have hcastRx : ((R - x : Int) : ZMod P) = -((x : Int) : ZMod P) := by
        rw [Int.cast_sub, cast_R]
        ring
      have hz' : z = R - x := canon_inj hz hRx (by rw [h, hcastRx])
      refine ⟨fun hle => ?_, fun _ => hz'⟩
      exfalso
      rw [hz'] at hzh
      omega

/-- `tonelli_shanks` at the order `R`, on a canonical input that is a square in
`ZMod P`: it succeeds, and returns the canonical square root lying in `[0, half]`. -/
theorem tonelli_spec {n : Int} (hn : canon n) {s : ZMod P}
    (hs : s * s = ((n : Int) : ZMod P)) :
    ∃ z : Int, tonelli_shanks n R = some z ∧ canon z ∧ z ≤ Fr.half ∧
      ((z : Int) : ZMod P) * ((z : Int) : ZMod P) = ((n : Int) : ZMod P) := by
  haveI : Fact (Nat.Prime P) := ⟨P_prime⟩
  rw [tonelli_unfold]
  by_cases hn0 : n = 0
  · rw [if_pos (by simp [F1Field.is_zero, hn0] : Fr.is_zero n = true)]
    refine ⟨Fr.zero, rfl, canon_zero, half_nonneg, ?_⟩
    rw [hn0]
    norm_num [F1Field.zero]
  · rw [if_neg (by simp [F1Field.is_zero, hn0] : ¬ Fr.is_zero n = true)]
    have hsne : s ≠ 0 := by
      intro h
      apply hn0
      apply canon_inj hn canon_zero
      rw [h] at hs
      push_cast
      linear_combination -hs
    have hTpos : (0 : Int)
        < 40770029410420498293352137776570907027550720424234931066070132305055 := by decide
    obtain ⟨hwc, hwv⟩ := pow_sem hn hTpos
    set T : Nat :=
      (40770029410420498293352137776570907027550720424234931066070132305055 : Int).toNat
      with hTdef
    set w : Int :=
      Fr.pow n 40770029410420498293352137776570907027550720424234931066070132305055
      with hwdef
    have hkey : ((n : Int) : ZMod P) ^ ((2 * T + 1) * 2 ^ 27) = 1 := by
      have h2 : (2 * T + 1) * 2 ^ 27 * 2 = P - 1 := by rw [hTdef]; decide!
      rw [← hs, mul_pow, ← pow_add]
      have h3 : (2 * T + 1) * 2 ^ 27 + (2 * T + 1) * 2 ^ 27 = P - 1 := by omega
      rw [h3]
      exact ZMod.pow_card_sub_one_eq_one hsne
    have huc : canon (Fr.mul (Fr.square w) n) := canon_mul (canon_square hwc.1).1 hn.1
    have huv : ((Fr.mul (Fr.square w) n : Int) : ZMod P)
        = ((n : Int) : ZMod P) ^ (2 * T + 1) := by
      have hTT : T + T + 1 = 2 * T + 1 := by omega
      rw [cast_mul, cast_square, hwv, ← pow_add, ← pow_succ, hTT]
    have h27pos : (0 : Int) < 2 ^ 27 := by decide
    obtain ⟨ha0c, ha0v⟩ := pow_sem huc h27pos
    have h27toNat : ((2 : Int) ^ 27).toNat = 2 ^ 27 := by decide
    have ha0val : ((Fr.pow (Fr.mul (Fr.square w) n) (2 ^ 27) : Int) : ZMod P) = 1 := by
      rw [ha0v, h27toNat, huv, ← pow_mul, hkey]
    have ha0one : Fr.pow (Fr.mul (Fr.square w) n) (2 ^ 27) = 1 :=
      canon_cast_eq_one ha0c ha0val
    rw [if_neg (by rw [ha0one]; decide! :
      ¬ Fr.eq (Fr.pow (Fr.mul (Fr.square w) n) (2 ^ 27)) Fr.negone = true)]
    have hxc : canon (Fr.mul n w) := canon_mul hn.1 hwc.1
    have hbc : canon (Fr.mul (Fr.mul n w) w) := canon_mul hxc.1 hwc.1
    have hxv : ((Fr.mul n w : Int) : ZMod P) = ((n : Int) : ZMod P) ^ (T + 1) := by
      rw [cast_mul, hwv, mul_comm, ← pow_succ]
    have hbv : ((Fr.mul (Fr.mul n w) w : Int) : ZMod P)
        = ((n : Int) : ZMod P) ^ (2 * T + 1) := by
      have hTT : T + 1 + T = 2 * T + 1 := by omega
      rw [cast_mul, hxv, hwv, ← pow_add, hTT]
    have hxx : ((Fr.mul n w : Int) : ZMod P) * ((Fr.mul n w : Int) : ZMod P)
        = ((n : Int) : ZMod P) * ((Fr.mul (Fr.mul n w) w : Int) : ZMod P) := by
      have hTT : T + 1 + (T + 1) = 2 * T + 1 + 1 := by omega
      rw [hxv, hbv, ← pow_add, mul_comm, ← pow_succ, hTT]
    have hbpow : ((Fr.mul (Fr.mul n w) w : Int) : ZMod P) ^ (2 ^ 27) = 1 := by
      rw [hbv, ← pow_mul, hkey]
    have hZc : canon
        (5978345932401256595026418116861078668372907927053715034645334559810731495452 :
          Int) := by decide!
    have hZpow :
        ((( 5978345932401256595026418116861078668372907927053715034645334559810731495452 :
          Int)) : ZMod P) ^ (2 ^ 27) = -1 := by
      have h1 : powmod
          5978345932401256595026418116861078668372907927053715034645334559810731495452
          (2 ^ 27) P = P - 1 := by decide!
      have h2 := zmod_powmod P (by decide)
        5978345932401256595026418116861078668372907927053715034645334559810731495452
        (2 ^ 27) (by decide)
      rw [h1] at h2
      have h3 : ((P - 1 : Nat) : ZMod P) = -1 := by
        have hP1 : 1 ≤ P := by decide
        rw [Nat.cast_sub hP1, ZMod.natCast_self, Nat.cast_one]
        ring
      rw [h3] at h2
      have h4 : ((5978345932401256595026418116861078668372907927053715034645334559810731495452 :
          Int) : ZMod P)
          = ((5978345932401256595026418116861078668372907927053715034645334559810731495452 :
          Nat) : ZMod P) := by
        rw [show (5978345932401256595026418116861078668372907927053715034645334559810731495452 :
          Int)
          = ((5978345932401256595026418116861078668372907927053715034645334559810731495452 :
          Nat) : Int) from rfl, Int.cast_natCast]
      rw [h4, h2]
    obtain ⟨xf, hloop, hxfc, hxfsq⟩ := tsLoop_spec (((n : Int) : ZMod P)) 29
      (Fr.mul n w) (Fr.mul (Fr.mul n w) w)
      5978345932401256595026418116861078668372907927053715034645334559810731495452 28
      hxc hbc hZc (by omega) (by omega) hxx hbpow hZpow
    rw [hloop]
    by_cases hle : xf ≤ Fr.half
    · have hgeq : Fr.geq xf Fr.zero = true := (geq_zero_iff hxfc).mpr hle
      refine ⟨xf, ?_, hxfc, hle, hxfsq⟩
      simp [hgeq]
    · have hgeqn : ¬ (Fr.geq xf Fr.zero = true) :=
        fun hcon => hle ((geq_zero_iff hxfc).mp hcon)
      have hgeqf : Fr.geq xf Fr.zero = false := by
        cases hb : Fr.geq xf Fr.zero
        · rfl
        · exact absurd hb hgeqn
      have hhalf0 : (0 : Int) ≤ Fr.half := half_nonneg
      have hxf0 : xf ≠ 0 := by omega
      have hnegeq : Fr.neg xf = R - xf := by
        unfold F1Field.neg
        rw [if_neg hxf0, Fr_order_eq]
      have hRxc : canon (R - xf) := by
        have h1 := hxfc.1
        have h2 := hxfc.2
        constructor <;> omega
      have hRhalf := R_half
      refine ⟨R - xf, ?_, hRxc, by omega, ?_⟩
      · simp [hgeqf, hnegeq]
      · have hc : ((R - xf : Int) : ZMod P) = -((xf : Int) : ZMod P) := by
          rw [Int.cast_sub, cast_R]
          ring
        rw [hc]
        linear_combination hxfsq

/-! ## Decoding `unpack_point` on packed canonical values -/

/-- `unpack_point` on a canonical `y` (sign bit clear): the buffer decodes back to
`y`, the range check passes, and the result is driven by `tonelli_shanks`. -/
theorem unpack_point_decode_pos {y : Int} (hy : canon y) :
    unpack_point y =
      match tonelli_shanks
          (Fr.div (Fr.sub Fr.one (Fr.square y)) (Fr.sub A (Fr.mul D (Fr.square y)))) R with
      | none => none
      | some x => some (x, y) := by
  have hylt : y < 2 ^ 256 := by
    have h1 : R < (2 : Int) ^ 256 := by decide
    have h2 := hy.2
    omega
  obtain ⟨l, hsome, hlen, hval, hdig⟩ := le_bigint_some hy.1 hylt
  have h31 : (31 : Nat) < l.length := by omega
  have hb31lt : l.getD 31 0 < 256 := by
    rw [List.getD_eq_getElem l 0 h31]
    exact hdig _ (List.getElem_mem h31)
  have hsplit := le_split31 l hlen
  have hlow0 : 0 ≤ le_bytes_to_bigint (l.take 31) := le_nonneg _
  have hlowlt : le_bytes_to_bigint (l.take 31) < 256 ^ 31 := by
    have := le_lt (l.take 31) (fun b hb => hdig b (List.take_subset _ _ hb))
    have hlen31 : (l.take 31).length = 31 := by
      rw [List.length_take]
      omega
    rwa [hlen31] at this
  have hpow : (256 : Int) ^ 31 = 2 ^ 248 := by norm_num
  rw [hpow] at hsplit hlowlt
  set b31 := l.getD 31 0 with hb31def
  have hb31small : (b31 : Int) < 64 := by
    have hyR : y < R := hy.2
    have hR : R < (2 : Int) ^ 254 := by decide
    by_contra hcon
    push_neg at hcon
    have hbig : (2 : Int) ^ 248 * 64 ≤ le_bytes_to_bigint l := by
      rw [hsplit]
      nlinarith
    rw [hval] at hbig
    norm_num at hbig
    omega
  have hb31n : b31 < 64 := by exact_mod_cast hb31small
  unfold unpack_point
  rw [hsome]
  dsimp only
  have hnosign : ¬ (b31.land 128 ≠ 0) := by
    intro hc
    have := (land128_ne b31 hb31lt).mp hc
    omega
  rw [if_neg hnosign, hval]
  have hgt : scalar.gt y R = false := by
    unfold scalar.gt
    simp only [decide_eq_false_iff_not, not_lt]
    exact le_of_lt hy.2
  rw [hgt]
  have hland : (l.getD 31 0).land 128 = 0 := not_not.mp hnosign
  simp only [Bool.false_eq_true, if_false, hland, ne_eq, not_true_eq_false, if_neg,
    not_false_eq_true, ite_false]

/-- `unpack_point` on a canonical `y` with the sign bit set: the top byte is reduced
modulo 128, the buffer decodes back to `y`, and the negated root is returned. -/
theorem unpack_point_decode_neg {y : Int} (hy : canon y) :
    unpack_point (y + 2 ^ 255) =
      match tonelli_shanks
          (Fr.div (Fr.sub Fr.one (Fr.square y)) (Fr.sub A (Fr.mul D (Fr.square y)))) R with
      | none => none
      | some x => some (Fr.neg x, y) := by
  have hR : R < (2 : Int) ^ 254 := by decide
  have hy0 := hy.1
  have hy2 := hy.2
  obtain ⟨l, hsome, hlen, hval, hdig⟩ :=
    le_bigint_some (v := y + 2 ^ 255) (by omega) (by omega)
  have h31 : (31 : Nat) < l.length := by omega
  have hb31lt : l.getD 31 0 < 256 := by
    rw [List.getD_eq_getElem l 0 h31]
    exact hdig _ (List.getElem_mem h31)
  have hsplit := le_split31 l hlen
  have hlow0 : 0 ≤ le_bytes_to_bigint (l.take 31) := le_nonneg _
  have hlowlt : le_bytes_to_bigint (l.take 31) < 256 ^ 31 := by
    have := le_lt (l.take 31) (fun b hb => hdig b (List.take_subset _ _ hb))
    have hlen31 : (l.take 31).length = 31 := by
      rw [List.length_take]
      omega
    rwa [hlen31] at this
  have hpow : (256 : Int) ^ 31 = 2 ^ 248 := by norm_num
  rw [hpow] at hsplit hlowlt
  set b31 := l.getD 31 0 with hb31def
  have hb31ge : 128 ≤ b31 := by
    by_contra hcon
    push_neg at hcon
    have hci : (b31 : Int) ≤ 127 := by exact_mod_cast Nat.le_of_lt_succ hcon
    omega
  unfold unpack_point
  rw [hsome]
  dsimp only
  have hsgn : (l.getD 31 0).land 128 ≠ 0 := (land128_ne b31 hb31lt).mpr hb31ge
  rw [if_pos hsgn]
  have h127 : (l.getD 31 0).land 127 = b31 % 128 := land127_eq b31 hb31lt
  rw [h127]
  have hset := le_set31 l hlen (b31 % 128)
  rw [hpow] at hset
  have hmodn : b31 % 128 = b31 - 128 := by omega
  have hmodcast : ((b31 % 128 : Nat) : Int) = (b31 : Int) - 128 := by
    rw [hmodn, Nat.cast_sub hb31ge]
    norm_num
  rw [hmodcast] at hset
  have hyy : le_bytes_to_bigint (l.set 31 (b31 % 128)) = y := by
    rw [hset]
    omega
  rw [hyy]
  have hgt : scalar.gt y R = false := by
    unfold scalar.gt
    simp only [decide_eq_false_iff_not, not_lt]
    exact le_of_lt hy.2
  rw [hgt]
  simp only [Bool.false_eq_true, if_false, eq_true hsgn, if_true]

/-- C5: for every point `p = (x, y)` with canonical coordinates in `[0, r)` that
satisfies the curve equation (`in_curve p = true`), `unpack_point (pack_point p)`
succeeds and returns exactly `(x, y)`. -/
theorem claim_C5 {p : Point} (hx : canon p.1) (hy : canon p.2) (hc : in_curve p = true) :
    unpack_point (pack_point p) = some p := by
  haveI : Fact (Nat.Prime P) := ⟨P_prime⟩
  obtain ⟨x, y⟩ := p
  dsimp only at hx hy hc ⊢
  have hcInt : Fr.add (Fr.mul A (Fr.square x)) (Fr.square y)
      = Fr.add Fr.one (Fr.mul (Fr.mul (Fr.square x) (Fr.square y)) D) := by
    have hc' := hc
    unfold in_curve at hc'
    dsimp only at hc'
    unfold F1Field.eq at hc'
    exact eq_of_beq hc'
  have hone : ((F1Field.one Fr : Int) : ZMod P) = 1 := by
    rw [show F1Field.one Fr = (1 : Int) from rfl]
    exact Int.cast_one
  have hcv : ((x : Int) : ZMod P) * ((x : Int) : ZMod P)
        * (((A : Int) : ZMod P)
          - ((D : Int) : ZMod P) * (((y : Int) : ZMod P) * ((y : Int) : ZMod P)))
      = 1 - ((y : Int) : ZMod P) * ((y : Int) : ZMod P) := by
    have hcast := congrArg (fun t : Int => ((t : Int) : ZMod P)) hcInt
    simp only [cast_add, cast_mul, cast_square] at hcast
    rw [hone] at hcast
    linear_combination hcast
  have hy2c : canon (Fr.square y) := canon_square hy.1
  have hDc : canon D := canon_e
  have hdenc : canon (Fr.sub A (Fr.mul D (Fr.square y))) :=
    canon_sub canon_A (canon_mul hDc.1 hy2c.1)
  have hnumc : canon (Fr.sub Fr.one (Fr.square y)) := canon_sub canon_one hy2c
  have hdencast : ((Fr.sub A (Fr.mul D (Fr.square y)) : Int) : ZMod P)
      = ((A : Int) : ZMod P)
        - ((D : Int) : ZMod P) * (((y : Int) : ZMod P) * ((y : Int) : ZMod P)) := by
    rw [cast_sub, cast_mul, cast_square]
  have hnumcast : ((Fr.sub Fr.one (Fr.square y) : Int) : ZMod P)
      = 1 - ((y : Int) : ZMod P) * ((y : Int) : ZMod P) := by
    rw [cast_sub, cast_square, hone]
  have hADne : ((A : Int) : ZMod P) ≠ ((D : Int) : ZMod P) := by
    intro hcon
    have hAD : A = D := canon_inj canon_A hDc hcon
    exact absurd hAD (by decide)
  have hdenZ : ((Fr.sub A (Fr.mul D (Fr.square y)) : Int) : ZMod P) ≠ 0 := by
    rw [hdencast]
    intro h0
    have hy21 : ((y : Int) : ZMod P) * ((y : Int) : ZMod P) = 1 := by
      have h1 : (1 : ZMod P) - ((y : Int) : ZMod P) * ((y : Int) : ZMod P) = 0 := by
        rw [← hcv]
        linear_combination (((x : Int) : ZMod P) * ((x : Int) : ZMod P)) * h0
      linear_combination -h1
    apply hADne
    linear_combination h0 + ((D : Int) : ZMod P) * hy21
  have hdenne : Fr.sub A (Fr.mul D (Fr.square y)) ≠ 0 := by
    intro h0
    apply hdenZ
    rw [h0]
    norm_num
  obtain ⟨hcandc, hcandv⟩ := div_sem hnumc hdenc hdenne
  have hcandx : ((Fr.div (Fr.sub Fr.one (Fr.square y))
        (Fr.sub A (Fr.mul D (Fr.square y))) : Int) : ZMod P)
      = ((x : Int) : ZMod P) * ((x : Int) : ZMod P) := by
    have hmul : (((Fr.div (Fr.sub Fr.one (Fr.square y))
          (Fr.sub A (Fr.mul D (Fr.square y))) : Int) : ZMod P)
          - ((x : Int) : ZMod P) * ((x : Int) : ZMod P))
        * ((Fr.sub A (Fr.mul D (Fr.square y)) : Int) : ZMod P) = 0 := by
      linear_combination hcandv + hnumcast - hcv
        - (((x : Int) : ZMod P) * ((x : Int) : ZMod P)) * hdencast
    rcases mul_eq_zero.mp hmul with h | h
    · linear_combination h
    · exact absurd h hdenZ
  obtain ⟨z, htz, hzc, hzh, hzsq⟩ :=
    tonelli_spec hcandc (s := ((x : Int) : ZMod P)) hcandx.symm
  obtain ⟨hzlow, hzhigh⟩ := root_unique hx hzc hzh (hzsq.trans hcandx)
  rw [pack_point_eq hy]
  dsimp only
  by_cases hhx : x ≤ Fr.half
  · have hltf : ¬ (Fr.lt x Fr.zero = true) := by
      intro hcon
      have := (lt_zero_iff hx).mp hcon
      omega
    rw [if_neg hltf, add_zero, unpack_point_decode_pos hy, htz]
    show some (z, y) = some (x, y)
    rw [hzlow hhx]
  · push_neg at hhx
    have hltt : Fr.lt x Fr.zero = true := (lt_zero_iff hx).mpr hhx
    rw [if_pos hltt, unpack_point_decode_neg hy, htz]
    show some (Fr.neg z, y) = some (x, y)
    have hzeq : z = R - x := hzhigh hhx
    have hxlt : x < R := hx.2
    have hzne : z ≠ 0 := by
      rw [hzeq]
      omega
    have hneg : Fr.neg z = x := by
      unfold F1Field.neg
      rw [if_neg hzne, Fr_order_eq, hzeq]
      ring
    rw [hneg]

/-- Witness for C5 at the concrete on-curve point `BASE8`. -/
theorem claim_C5_witness :
    canon BASE8.1 ∧ canon BASE8.2 ∧ in_curve BASE8 = true ∧
    unpack_point (pack_point BASE8) = some BASE8 :=
  ⟨by decide!, by decide!, by decide!, claim_C5 (by decide!) (by decide!) (by decide!)⟩
